import Mathlib

set_option maxRecDepth 100000

/-!
Verification of the News Nest conversation subsystem.

This development shallowly embeds the conversation-screen logic of the
News Nest React Native application: the chunking engine of
src/utils/messageUtils.ts and the history codec, session hydration,
persistence guard and send-start state behaviour of
src/screens/ConversationScreen.tsx.  Text is modelled as List Char.
JavaScript strings, regexes and built-ins that the source relies on
(String.prototype.trim, match, split, lastIndexOf, substring, JSON
stringify and parse) are modelled by executable Lean functions that are
faithful to their ECMAScript behaviour on the fragments the source
exercises.  All recursion is structural so that every definition
evaluates inside the kernel.
-/

namespace NewsNest

/-- Text is modelled as a list of characters. -/
abbrev Str := List Char

/-- Sentence terminators of the regex character class [.!?] used by
messageUtils.ts. -/
def isTerm (c : Char) : Bool := c = '.' || c = '!' || c = '?'

/-- Whitespace as recognised by the JavaScript regex class backslash-s and by
String.prototype.trim, restricted to the whitespace characters that occur in
this code base. -/
def isWhite (c : Char) : Bool := c = ' ' || c = '\n' || c = '\t' || c = '\r'

/-- Left part of String.prototype.trim. -/
def trimLeft (s : Str) : Str := s.dropWhile isWhite

/-- Right part of String.prototype.trim. -/
def trimRight (s : Str) : Str := (s.reverse.dropWhile isWhite).reverse

/-- Model of String.prototype.trim. -/
def trim (s : Str) : Str := trimRight (trimLeft s)

/-- Model of Array.prototype.join applied with separator a single space. -/
def joinSp : List Str → Str
  | [] => []
  | [x] => x
  | x :: xs => x ++ ' ' :: joinSp xs

/-- Concatenation of a list of strings (used only in specifications). -/
def concatStr (l : List Str) : Str := l.foldr (fun a b => a ++ b) []

/-- The non-whitespace content of a string; two strings are equal modulo
whitespace normalisation when their nonWS images coincide. -/
def nonWS (s : Str) : Str := s.filter (fun c => !isWhite c)

/-- Fuelled scanner for the global regex match with pattern
one-or-more non-terminators followed by one-or-more terminators, as used in
getInitialChunk, getNextChunk and splitIntoMessageChunks.  A match starts at
the first non-terminator character, greedily takes the maximal run of
non-terminators, then the maximal run of terminators; characters that cannot
start or extend a match are skipped, exactly as the ECMAScript global regex
engine does. -/
def tokGo : Nat → Str → List Str
  | 0, _ => []
  | _ + 1, [] => []
  | fuel + 1, c :: cs =>
    if isTerm c then tokGo fuel cs
    else
      let a := c :: cs.takeWhile (fun x => !isTerm x)
      let r1 := cs.dropWhile (fun x => !isTerm x)
      let b := r1.takeWhile isTerm
      if b = [] then [] else (a ++ b) :: tokGo fuel (r1.dropWhile isTerm)

/-- Sentence tokenization: the list of matches of the sentence regex. -/
def tokenize (s : Str) : List Str := tokGo s.length s

/-- Model of the source expression text.match(sentenceRegex) with the
or-else [text] fallback used when match returns null. -/
def sentencesOf (s : Str) : List Str :=
  match tokenize s with
  | [] => [s]
  | l => l

/-- Model of messageUtils.ts getNextChunk: pop the first sentence, rejoin the
rest with single spaces, trim both parts.  The source guards against an empty
sentence array, which cannot occur. -/
def getNextChunk (s : Str) : Str × Str :=
  let sentences := sentencesOf s
  if sentences.length = 0 then ([], [])
  else (trim (sentences.headD []), trim (joinSp sentences.tail))

/-- Remaining text after n iterated applications of getNextChunk to its own
remaining output. -/
def iterRemaining (s : Str) : Nat → Str
  | 0 => s
  | n + 1 => (getNextChunk (iterRemaining s n)).2

/-- Chunk produced by the n-th iterated application of getNextChunk. -/
def chunkAt (s : Str) (n : Nat) : Str := (getNextChunk (iterRemaining s n)).1

/-- Shape of every token produced by the sentence tokenizer: a non-empty run
of non-terminators followed by a non-empty run of terminators. -/
def tokShape (t : Str) : Prop :=
  ∃ a b, t = a ++ b ∧ a ≠ [] ∧ (∀ x ∈ a, isTerm x = false) ∧ b ≠ [] ∧
    ∀ x ∈ b, isTerm x = true

/-- A token is good when its first non-whitespace character exists and is not
a terminator; rejoining and re-tokenizing preserves exactly the good
tokens. -/
def goodTok (t : Str) : Bool :=
  match trimLeft t with
  | [] => false
  | c :: _ => !isTerm c

/-- Token list obtained by re-tokenizing the space-rejoined and trimmed tail
of a token list. -/
def shiftTokens : List Str → List Str
  | [] => []
  | u :: us => trimLeft u :: us.map (fun v => ' ' :: v)

/-- Accumulation loop of getInitialChunk: starting from the sentence list, an
index and the accumulated text, either absorb the next sentence (when the
candidate stays within 150 characters and fewer than two sentences were
taken) or stop and rejoin the untaken sentences with single spaces. -/
def giLoop : List Str → Nat → Str → Str × Str
  | [], _, ini => (ini, [])
  | sentence :: rest, i, ini =>
    let candidate := ini ++ sentence
    if candidate.length ≤ 150 ∧ i < 2 then giLoop rest (i + 1) candidate
    else (ini, joinSp (sentence :: rest))

/-- Whether pat occurs in s starting at index i. -/
def matchesAt (s pat : Str) (i : Nat) : Bool := pat.isPrefixOf (s.drop i)

/-- Search for the largest index at most pos where pat occurs in s. -/
def lastIndexOfGo (s pat : Str) : Nat → Option Nat
  | 0 => if matchesAt s pat 0 then some 0 else none
  | i + 1 => if matchesAt s pat (i + 1) then some (i + 1) else lastIndexOfGo s pat i

/-- Model of String.prototype.lastIndexOf with a position argument: the
largest index at most pos at which pat occurs, and -1 when there is none. -/
def jsLastIndexOf (s pat : Str) (pos : Nat) : Int :=
  match lastIndexOfGo s pat pos with
  | some i => (i : Int)
  | none => -1

/-- JavaScript logical-or on numbers: the left operand unless it is 0 (the
only falsy number that arises here; note that -1 is truthy). -/
def jsOr (a b : Int) : Int := if a = 0 then b else a

/-- Clamp a JavaScript number used as a string index into [0, len]. -/
def clampIdx (len : Nat) (x : Int) : Nat :=
  if x < 0 then 0 else min x.toNat len

/-- Model of String.prototype.substring with two arguments: both indices are
clamped into range and swapped when out of order. -/
def jsSubstring2 (s : Str) (a b : Int) : Str :=
  let i := clampIdx s.length a
  let j := clampIdx s.length b
  (s.take (max i j)).drop (min i j)

/-- Model of String.prototype.substring with one argument. -/
def jsSubstring1 (s : Str) (a : Int) : Str := jsSubstring2 s a (s.length : Int)

/-- Model of messageUtils.ts getInitialChunk, including the JavaScript
truthiness of the remaining string, the length-based fallback with its
lastIndexOf or-chain, and the final trims. -/
def getInitialChunk (text : Str) : Str × Str :=
  let sentences := sentencesOf text
  let lp := giLoop sentences 0 []
  let remaining := lp.2
  if remaining = [] ∧ 150 < text.length then
    let splitPoint :=
      jsOr (jsLastIndexOf text ". ".data 150)
        (jsOr (jsLastIndexOf text " ".data 150) (150 : Int))
    (trim (jsSubstring2 text 0 splitPoint), trim (jsSubstring1 text (splitPoint + 1)))
  else if remaining = [] then (trim text, [])
  else (trim lp.1, trim remaining)

/-- Fuelled scanner for String.prototype.split on the regex of two or more
consecutive newlines: a run of at least two newlines closes the current
piece (the whole run is the separator); a single newline stays in the
piece. -/
def sbGo : Nat → Str → Str → List Str
  | 0, _, cur => [cur.reverse]
  | _ + 1, [], cur => [cur.reverse]
  | fuel + 1, c :: cs, cur =>
    if c = '\n' then
      match cs with
      | '\n' :: _ => cur.reverse :: sbGo fuel (cs.dropWhile (fun d => d = '\n')) []
      | _ => sbGo fuel cs (c :: cur)
    else sbGo fuel cs (c :: cur)

/-- Model of text.split on two-or-more newlines. -/
def splitBlank (s : Str) : List Str := sbGo s.length s []

/-- The paragraphs variable of splitIntoMessageChunks: split on blank lines,
trim each piece, keep the non-empty ones. -/
def paragraphsOf (s : Str) : List Str :=
  ((splitBlank s).map trim).filter (fun p => !p.isEmpty)

/-- Sentence-grouping loop of splitIntoMessageChunks: close the current chunk
when the candidate exceeds 150 characters or at every second sentence index
after the first, then continue from the current sentence. -/
def chunksGo : List Str → Nat → Str → List Str
  | [], _, cur => if cur = [] then [] else [trim cur]
  | sentence :: rest, i, cur =>
    let candidate := if cur = [] then sentence else cur ++ ' ' :: sentence
    if 150 < candidate.length ∨ (cur ≠ [] ∧ i % 2 = 0 ∧ 0 < i) then
      (if cur = [] then [] else [trim cur]) ++ chunksGo rest (i + 1) sentence
    else chunksGo rest (i + 1) candidate

/-- Model of messageUtils.ts splitIntoMessageChunks. -/
def splitIntoMessageChunks (text : Str) : List Str :=
  let paragraphs := paragraphsOf text
  if 1 < paragraphs.length then paragraphs
  else
    let sentences := sentencesOf text
    if sentences.length ≤ 2 then [trim text]
    else
      let chunks := chunksGo sentences 0 []
      if chunks = [] then [trim text] else chunks

end NewsNest

namespace NewsNest

theorem term_not_white {c : Char} (h : isTerm c = true) : isWhite c = false := by
  simp only [isTerm, Bool.or_eq_true, decide_eq_true_eq] at h
  rcases h with (h | h) | h <;> subst h <;> rfl

theorem white_not_term {c : Char} (h : isWhite c = true) : isTerm c = false := by
  simp only [isWhite, Bool.or_eq_true, decide_eq_true_eq] at h
  rcases h with ((h | h) | h) | h <;> subst h <;> rfl

theorem trim_nil : trim [] = [] := rfl

theorem trimLeft_idem (s : Str) : trimLeft (trimLeft s) = trimLeft s := by
  induction s with
  | nil => rfl
  | cons c cs ih =>
    simp only [trimLeft, List.dropWhile_cons] at *
    by_cases h : isWhite c = true
    · simpa [h] using ih
    · simp [h]

theorem trimLeft_cons_white {c : Char} (h : isWhite c = true) (s : Str) :
    trimLeft (c :: s) = trimLeft s := by
  simp [trimLeft, List.dropWhile_cons, h]

theorem trim_trimLeft (s : Str) : trim (trimLeft s) = trim s := by
  simp [trim, trimLeft_idem]

theorem trim_cons_space (s : Str) : trim (' ' :: s) = trim s := by
  simp [trim, trimLeft_cons_white (c := ' ') rfl]

theorem goodTok_trimLeft (t : Str) : goodTok (trimLeft t) = goodTok t := by
  simp [goodTok, trimLeft_idem]

theorem goodTok_cons_space (t : Str) : goodTok (' ' :: t) = goodTok t := by
  simp [goodTok, trimLeft_cons_white (c := ' ') rfl]

theorem trimRight_append_single {x : Str} {z : Char} (hz : isWhite z = false) :
    trimRight (x ++ [z]) = x ++ [z] := by
  simp [trimRight, List.dropWhile_cons, hz]

theorem trim_append_single {y : Str} {z : Char} (hz : isWhite z = false) :
    trim (y ++ [z]) = trimLeft (y ++ [z]) := by
  rw [trim]
  by_cases hy : y.dropWhile isWhite = []
  · have h1 : trimLeft (y ++ [z]) = [z] := by
      simp [trimLeft, List.dropWhile_append, hy, List.dropWhile_cons, hz]
    rw [h1]
    simpa using trimRight_append_single (x := ([] : Str)) hz
  · have h1 : trimLeft (y ++ [z]) = y.dropWhile isWhite ++ [z] := by
      simp [trimLeft, List.dropWhile_append, hy]
    rw [h1]
    exact trimRight_append_single hz

theorem trim_eq_nil_iff {s : Str} : trim s = [] ↔ ∀ x ∈ s, isWhite x = true := by
  have h1 : trim s = [] ↔ ∀ x ∈ trimLeft s, isWhite x = true := by
    rw [trim, trimRight]
    constructor
    · intro h x hx
      have h2 : (trimLeft s).reverse.dropWhile isWhite = [] := by
        have h3 := congrArg List.reverse h
        simpa using h3
      exact List.dropWhile_eq_nil_iff.mp h2 x (List.mem_reverse.mpr hx)
    · intro h
      have h2 : (trimLeft s).reverse.dropWhile isWhite = [] :=
        List.dropWhile_eq_nil_iff.mpr (fun x hx => h x (List.mem_reverse.mp hx))
      simp [h2]
  rw [h1]
  constructor
  · intro h x hx
    rw [← List.takeWhile_append_dropWhile (p := isWhite) (l := s)] at hx
    rcases List.mem_append.mp hx with hx2 | hx2
    · exact List.mem_takeWhile_imp hx2
    · exact h x hx2
  · intro h x hx
    exact h x ((List.dropWhile_sublist isWhite).subset hx)

theorem tokenize_nil : tokenize [] = [] := rfl

theorem tokGo_succ_cons (f : Nat) (c : Char) (cs : Str) :
    tokGo (f + 1) (c :: cs) =
      if isTerm c then tokGo f cs
      else
        if (cs.dropWhile fun x => !isTerm x).takeWhile isTerm = [] then []
        else ((c :: cs.takeWhile fun x => !isTerm x) ++
              (cs.dropWhile fun x => !isTerm x).takeWhile isTerm) ::
          tokGo f ((cs.dropWhile fun x => !isTerm x).dropWhile isTerm) := rfl

theorem tokGo_fuel : ∀ (f : Nat) (s : Str), s.length ≤ f → tokGo f s = tokenize s := by
  intro f
  induction f using Nat.strong_induction_on with
  | _ f ih =>
    intro s hs
    match f, s with
    | 0, [] => rfl
    | 0, c :: cs => simp at hs
    | f + 1, [] => rfl
    | f + 1, c :: cs =>
      have hcs : cs.length ≤ f := by simpa using hs
      show tokGo (f + 1) (c :: cs) = tokGo (cs.length + 1) (c :: cs)
      rw [tokGo_succ_cons, tokGo_succ_cons]
      have hr2 : ((cs.dropWhile fun x => !isTerm x).dropWhile isTerm).length ≤ cs.length :=
        le_trans (List.dropWhile_sublist isTerm).length_le
          (List.dropWhile_sublist (fun x => !isTerm x)).length_le
      cases hc : isTerm c with
      | true =>
        rw [if_pos rfl, if_pos rfl]
        rw [ih f (by omega) cs hcs, ih cs.length (by omega) cs le_rfl]
      | false =>
        rw [if_neg Bool.false_ne_true, if_neg Bool.false_ne_true]
        rw [ih f (by omega) _ (le_trans hr2 hcs), ih cs.length (by omega) _ hr2]

theorem tokenize_cons_term {c : Char} (cs : Str) (hc : isTerm c = true) :
    tokenize (c :: cs) = tokenize cs := by
  show tokGo (cs.length + 1) (c :: cs) = tokenize cs
  rw [tokGo_succ_cons, if_pos hc]
  rfl

theorem tokenize_cons_nonterm {c : Char} (cs : Str) (hc : isTerm c = false) :
    tokenize (c :: cs) =
      if (cs.dropWhile fun x => !isTerm x).takeWhile isTerm = [] then []
      else ((c :: cs.takeWhile fun x => !isTerm x) ++
            (cs.dropWhile fun x => !isTerm x).takeWhile isTerm) ::
        tokenize ((cs.dropWhile fun x => !isTerm x).dropWhile isTerm) := by
  show tokGo (cs.length + 1) (c :: cs) = _
  rw [tokGo_succ_cons, if_neg (by simp [hc])]
  have hr2 : ((cs.dropWhile fun x => !isTerm x).dropWhile isTerm).length ≤ cs.length :=
    le_trans (List.dropWhile_sublist isTerm).length_le
      (List.dropWhile_sublist (fun x => !isTerm x)).length_le
  rw [tokGo_fuel cs.length _ hr2]

theorem tokenize_nil_of_no_term {s : Str} (h : ∀ x ∈ s, isTerm x = false) :
    tokenize s = [] := by
  match s with
  | [] => rfl
  | c :: cs =>
    rw [tokenize_cons_nonterm cs (h c (List.mem_cons_self c cs))]
    have hdw : cs.dropWhile (fun x => !isTerm x) = [] :=
      List.dropWhile_eq_nil_iff.mpr (fun x hx => by
        simp [h x (List.mem_cons_of_mem _ hx)])
    simp [hdw]

theorem tokenize_nil_of_all_term {s : Str} (h : ∀ x ∈ s, isTerm x = true) :
    tokenize s = [] := by
  induction s with
  | nil => rfl
  | cons c cs ih =>
    rw [tokenize_cons_term cs (h c (List.mem_cons_self c cs))]
    exact ih (fun x hx => h x (List.mem_cons_of_mem _ hx))

theorem tokenize_token_append {a b rest : Str}
    (ha : a ≠ []) (haT : ∀ x ∈ a, isTerm x = false)
    (hb : b ≠ []) (hbT : ∀ x ∈ b, isTerm x = true)
    (hrest : rest = [] ∨ ∃ d ds, rest = d :: ds ∧ isTerm d = false) :
    tokenize (a ++ b ++ rest) = (a ++ b) :: tokenize rest := by
  obtain ⟨c, a2, rfl⟩ := List.exists_cons_of_ne_nil ha
  obtain ⟨b0, b2, rfl⟩ := List.exists_cons_of_ne_nil hb
  have hc : isTerm c = false := haT c (List.mem_cons_self _ _)
  have hb0 : isTerm b0 = true := hbT b0 (List.mem_cons_self _ _)
  have ha2 : ∀ x ∈ a2, (fun x => !isTerm x) x = true := fun x hx => by
    simp [haT x (List.mem_cons_of_mem _ hx)]
  have hb2 : ∀ x ∈ b2, isTerm x = true := fun x hx => hbT x (List.mem_cons_of_mem _ hx)
  have hsplit : (c :: a2) ++ (b0 :: b2) ++ rest = c :: (a2 ++ ((b0 :: b2) ++ rest)) := by
    simp
  rw [hsplit, tokenize_cons_nonterm _ hc]
  have htake : (a2 ++ ((b0 :: b2) ++ rest)).takeWhile (fun x => !isTerm x) = a2 := by
    rw [List.takeWhile_append_of_pos ha2]
    simp [List.takeWhile_cons, hb0]
  have hdrop : (a2 ++ ((b0 :: b2) ++ rest)).dropWhile (fun x => !isTerm x) =
      (b0 :: b2) ++ rest := by
    rw [List.dropWhile_append_of_pos ha2]
    simp [List.dropWhile_cons, hb0]
  have hrestTake : rest.takeWhile isTerm = [] := by
    rcases hrest with rfl | ⟨d, ds, rfl, hd⟩
    · rfl
    · simp [List.takeWhile_cons, hd]
  have hrestDrop : rest.dropWhile isTerm = rest := by
    rcases hrest with rfl | ⟨d, ds, rfl, hd⟩
    · rfl
    · simp [List.dropWhile_cons, hd]
  have htake2 : ((b0 :: b2) ++ rest).takeWhile isTerm = b0 :: b2 := by
    rw [List.takeWhile_append_of_pos (fun x hx => hbT x hx)]
    simp [hrestTake]
  have hdrop2 : ((b0 :: b2) ++ rest).dropWhile isTerm = rest := by
    rw [List.dropWhile_append_of_pos (fun x hx => hbT x hx)]
    exact hrestDrop
  rw [hdrop, htake, htake2, hdrop2]
  rw [if_neg (by simp)]

theorem tokGo_shape : ∀ (f : Nat) (s : Str), ∀ t ∈ tokGo f s, tokShape t := by
  intro f
  induction f with
  | zero => intro s t ht; simp [tokGo] at ht
  | succ f ih =>
    intro s t ht
    match s with
    | [] => simp [tokGo] at ht
    | c :: cs =>
      rw [tokGo_succ_cons] at ht
      by_cases hc : isTerm c = true
      · rw [if_pos hc] at ht
        exact ih cs t ht
      · rw [if_neg (by simp [hc])] at ht
        by_cases hbb : (cs.dropWhile fun x => !isTerm x).takeWhile isTerm = []
        · rw [if_pos hbb] at ht
          simp at ht
        · rw [if_neg hbb] at ht
          rcases List.mem_cons.mp ht with rfl | hmem
          · refine ⟨c :: cs.takeWhile (fun x => !isTerm x),
              (cs.dropWhile fun x => !isTerm x).takeWhile isTerm, rfl, by simp, ?_, hbb, ?_⟩
            · intro x hx
              rcases List.mem_cons.mp hx with rfl | hx2
              · exact Bool.eq_false_iff.mpr hc
              · have := List.mem_takeWhile_imp hx2
                simpa using this
            · intro x hx
              exact List.mem_takeWhile_imp hx
          · exact ih _ t hmem

theorem tokenize_shape {s : Str} : ∀ t ∈ tokenize s, tokShape t :=
  tokGo_shape s.length s

theorem trim_ne_nil_of_shape {t : Str} (h : tokShape t) : trim t ≠ [] := by
  obtain ⟨a, b, rfl, _, _, hb, hbT⟩ := h
  obtain ⟨b0, b2, rfl⟩ := List.exists_cons_of_ne_nil hb
  intro hnil
  have hall := trim_eq_nil_iff.mp hnil
  have hw : isWhite b0 = true := hall b0 (by simp)
  have := white_not_term hw
  rw [hbT b0 (by simp)] at this
  cases this

theorem trimLeft_token {t : Str} (hsh : tokShape t) (hg : goodTok t = true) :
    ∃ a b, trimLeft t = a ++ b ∧ a ≠ [] ∧ (∀ x ∈ a, isTerm x = false) ∧ b ≠ [] ∧
      ∀ x ∈ b, isTerm x = true := by
  obtain ⟨a, b, rfl, ha, haT, hb, hbT⟩ := hsh
  by_cases hae : a.dropWhile isWhite = []
  · exfalso
    obtain ⟨b0, b2, rfl⟩ := List.exists_cons_of_ne_nil hb
    have hb0 : isWhite b0 = false := term_not_white (hbT b0 (List.mem_cons_self _ _))
    have htl : trimLeft (a ++ b0 :: b2) = b0 :: b2 := by
      simp [trimLeft, List.dropWhile_append, hae, List.dropWhile_cons, hb0]
    rw [goodTok, htl] at hg
    simp [hbT b0 (List.mem_cons_self _ _)] at hg
  · refine ⟨a.dropWhile isWhite, b, ?_, hae, ?_, hb, hbT⟩
    · simp [trimLeft, List.dropWhile_append, hae]
    · intro x hx
      exact haT x ((List.dropWhile_sublist isWhite).subset hx)

theorem tokShape_trimLeft {t : Str} (hsh : tokShape t) (hg : goodTok t = true) :
    tokShape (trimLeft t) := by
  obtain ⟨a, b, h1, h2, h3, h4, h5⟩ := trimLeft_token hsh hg
  exact ⟨a, b, h1, h2, h3, h4, h5⟩

theorem tokShape_cons_space {v : Str} (h : tokShape v) : tokShape (' ' :: v) := by
  obtain ⟨a, b, rfl, ha, haT, hb, hbT⟩ := h
  refine ⟨' ' :: a, b, by simp, by simp, ?_, hb, hbT⟩
  intro x hx
  rcases List.mem_cons.mp hx with rfl | hx2
  · rfl
  · exact haT x hx2

theorem joinSp_cons_cons (u v : Str) (vs : List Str) :
    joinSp (u :: v :: vs) = u ++ ' ' :: joinSp (v :: vs) := rfl

theorem joinSp_ends_term : ∀ (ts : List Str), ts ≠ [] → (∀ u ∈ ts, tokShape u) →
    ∃ y z, joinSp ts = y ++ [z] ∧ isTerm z = true := by
  intro ts
  induction ts with
  | nil => intro h; cases h rfl
  | cons u us ih =>
    intro _ hsh
    cases us with
    | nil =>
      obtain ⟨a, b, rfl, _, _, hb, hbT⟩ := hsh u (List.mem_cons_self _ _)
      rcases List.eq_nil_or_concat b with rfl | ⟨b1, z, rfl⟩
      · cases hb rfl
      · exact ⟨a ++ b1, z, by simp [joinSp], hbT z (by simp)⟩
    | cons v vs =>
      obtain ⟨y, z, hy, hz⟩ := ih (by simp) (fun w hw => hsh w (List.mem_cons_of_mem _ hw))
      refine ⟨u ++ ' ' :: y, z, ?_, hz⟩
      rw [joinSp_cons_cons, hy]
      simp

theorem tokenize_space_join : ∀ (us : List Str), (∀ v ∈ us, tokShape v) →
    tokenize (' ' :: joinSp us) = us.map (fun v => ' ' :: v) := by
  intro us
  induction us with
  | nil =>
    intro _
    exact tokenize_nil_of_no_term (by intro x hx; simp [joinSp] at hx; subst hx; rfl)
  | cons v vs ih =>
    intro hsh
    obtain ⟨a, b, hv, ha, haT, hb, hbT⟩ := hsh v (List.mem_cons_self _ _)
    have haT2 : ∀ x ∈ ' ' :: a, isTerm x = false := by
      intro x hx
      rcases List.mem_cons.mp hx with rfl | hx2
      · rfl
      · exact haT x hx2
    cases vs with
    | nil =>
      have hform : ' ' :: joinSp [v] = (' ' :: a) ++ b ++ [] := by simp [joinSp, hv]
      rw [hform, tokenize_token_append (by simp) haT2 hb hbT (Or.inl rfl)]
      simp [hv, tokenize_nil]
    | cons w ws =>
      have hform : ' ' :: joinSp (v :: w :: ws) =
          (' ' :: a) ++ b ++ (' ' :: joinSp (w :: ws)) := by
        rw [joinSp_cons_cons, hv]
        simp
      rw [hform,
        tokenize_token_append (by simp) haT2 hb hbT (Or.inr ⟨' ', joinSp (w :: ws), rfl, rfl⟩),
        ih (fun x hx => hsh x (List.mem_cons_of_mem _ hx))]
      simp [hv]

theorem tokenize_trim_joinSp (ts : List Str)
    (hsh : ∀ u ∈ ts, tokShape u) (hg : ∀ u ∈ ts, goodTok u = true) :
    tokenize (trim (joinSp ts)) = shiftTokens ts := by
  cases ts with
  | nil => rfl
  | cons u us =>
    obtain ⟨a, b, hdec, ha, haT, hb, hbT⟩ :=
      trimLeft_token (hsh u (List.mem_cons_self _ _)) (hg u (List.mem_cons_self _ _))
    obtain ⟨y, z, hyz, hz⟩ := joinSp_ends_term (u :: us) (by simp) hsh
    have h1 : trim (joinSp (u :: us)) = trimLeft (joinSp (u :: us)) := by
      rw [hyz]
      exact trim_append_single (term_not_white hz)
    have hune : u.dropWhile isWhite ≠ [] := by
      show trimLeft u ≠ []
      rw [hdec]
      simp [ha]
    cases us with
    | nil =>
      have h2 : trimLeft (joinSp [u]) = a ++ b ++ [] := by
        show trimLeft u = a ++ b ++ []
        rw [hdec]
        simp
      rw [h1, h2, tokenize_token_append ha haT hb hbT (Or.inl rfl)]
      show ([] : List Str) ++ [a ++ b] = shiftTokens [u]
      simp [shiftTokens, hdec]
    | cons w ws =>
      have h2 : trimLeft (joinSp (u :: w :: ws)) = a ++ b ++ (' ' :: joinSp (w :: ws)) := by
        rw [joinSp_cons_cons]
        show (u ++ ' ' :: joinSp (w :: ws)).dropWhile isWhite = _
        rw [List.dropWhile_append]
        simp only [hune, List.isEmpty_iff, if_neg]
        rw [show u.dropWhile isWhite = trimLeft u from rfl, hdec]
        simp
      rw [h1, h2,
        tokenize_token_append ha haT hb hbT (Or.inr ⟨' ', joinSp (w :: ws), rfl, rfl⟩),
        tokenize_space_join (w :: ws) (fun x hx => hsh x (List.mem_cons_of_mem _ hx))]
      show (a ++ b) :: (w :: ws).map (fun v => ' ' :: v) = shiftTokens (u :: w :: ws)
      simp [shiftTokens, hdec]

theorem shiftTokens_length (ts : List Str) : (shiftTokens ts).length = ts.length := by
  cases ts <;> simp [shiftTokens]

theorem shiftTokens_shape {ts : List Str} (hsh : ∀ u ∈ ts, tokShape u)
    (hg : ∀ u ∈ ts, goodTok u = true) : ∀ u ∈ shiftTokens ts, tokShape u := by
  cases ts with
  | nil => simp [shiftTokens]
  | cons u us =>
    intro w hw
    rcases List.mem_cons.mp hw with rfl | hw2
    · exact tokShape_trimLeft (hsh u (List.mem_cons_self _ _)) (hg u (List.mem_cons_self _ _))
    · obtain ⟨v, hv, rfl⟩ := List.mem_map.mp hw2
      exact tokShape_cons_space (hsh v (List.mem_cons_of_mem _ hv))

theorem shiftTokens_good {ts : List Str} (hg : ∀ u ∈ ts, goodTok u = true) :
    ∀ u ∈ shiftTokens ts, goodTok u = true := by
  cases ts with
  | nil => simp [shiftTokens]
  | cons u us =>
    intro w hw
    rcases List.mem_cons.mp hw with rfl | hw2
    · rw [goodTok_trimLeft]
      exact hg u (List.mem_cons_self _ _)
    · obtain ⟨v, hv, rfl⟩ := List.mem_map.mp hw2
      rw [goodTok_cons_space]
      exact hg v (List.mem_cons_of_mem _ hv)

theorem getD_map_space : ∀ (l : List Str) (j : Nat), j < l.length →
    (l.map (fun v => ' ' :: v)).getD j [] = ' ' :: l.getD j [] := by
  intro l
  induction l with
  | nil => intro j hj; simp at hj
  | cons x xs ih =>
    intro j hj
    cases j with
    | zero => simp
    | succ j2 =>
      simp only [List.map_cons, List.getD_cons_succ]
      exact ih j2 (by simpa using hj)

theorem shiftTokens_getD_trim (ts : List Str) : ∀ i < ts.length,
    trim ((shiftTokens ts).getD i []) = trim (ts.getD i []) := by
  cases ts with
  | nil => simp
  | cons u us =>
    intro i hi
    cases i with
    | zero => simp [shiftTokens, trim_trimLeft]
    | succ j =>
      simp only [shiftTokens, List.getD_cons_succ]
      rw [getD_map_space us j (by simpa using hi)]
      exact trim_cons_space _

theorem sentencesOf_of_tokenize_nil {s : Str} (h : tokenize s = []) :
    sentencesOf s = [s] := by
  rw [sentencesOf, h]

theorem sentencesOf_of_tokenize_cons {s : Str} {t : Str} {ts : List Str}
    (h : tokenize s = t :: ts) : sentencesOf s = t :: ts := by
  rw [sentencesOf, h]

theorem getNextChunk_eq {s x : Str} {xs : List Str} (h : sentencesOf s = x :: xs) :
    getNextChunk s = (trim x, trim (joinSp xs)) := by
  simp [getNextChunk, h]

theorem getNextChunk_nil_input : getNextChunk [] = ([], []) := rfl

theorem iterRemaining_shift (s : Str) : ∀ n,
    iterRemaining s (n + 1) = iterRemaining ((getNextChunk s).2) n := by
  intro n
  induction n with
  | zero => rfl
  | succ n ih =>
    show (getNextChunk (iterRemaining s (n + 1))).2 = _
    rw [ih]
    rfl

theorem iterRemaining_nil_input : ∀ n, iterRemaining [] n = [] := by
  intro n
  induction n with
  | zero => rfl
  | succ n ih =>
    show (getNextChunk (iterRemaining [] n)).2 = []
    rw [ih, getNextChunk_nil_input]

theorem iterRemaining_add (s : Str) (a : Nat) : ∀ b,
    iterRemaining s (a + b) = iterRemaining (iterRemaining s a) b := by
  intro b
  induction b with
  | zero => rfl
  | succ b ih =>
    show (getNextChunk (iterRemaining s (a + b))).2 = _
    rw [ih]
    rfl

theorem stream_spec : ∀ (k : Nat) (s : Str), (tokenize s).length ≤ k →
    (∀ u ∈ tokenize s, goodTok u = true) →
    iterRemaining s (sentencesOf s).length = [] ∧
    ∀ i < (sentencesOf s).length, chunkAt s i = trim ((sentencesOf s).getD i []) := by
  intro k
  induction k with
  | zero =>
    intro s hk _
    have h0 : tokenize s = [] := List.length_eq_zero.mp (Nat.le_zero.mp hk)
    have hs : sentencesOf s = [s] := sentencesOf_of_tokenize_nil h0
    have hgn : getNextChunk s = (trim s, []) := by
      have := getNextChunk_eq hs
      simpa [joinSp, trim_nil] using this
    constructor
    · rw [hs]
      show (getNextChunk (iterRemaining s 0)).2 = []
      show (getNextChunk s).2 = []
      rw [hgn]
    · intro i hi
      rw [hs] at hi
      have hi0 : i = 0 := by simpa using hi
      subst hi0
      rw [hs]
      show (getNextChunk s).1 = trim ([s].getD 0 [])
      rw [hgn]
      rfl
  | succ k ih =>
    intro s hk hgood
    cases htok : tokenize s with
    | nil =>
      have hk0 : (tokenize s).length ≤ 0 := by rw [htok]; simp
      exact (by
        have h0 : tokenize s = [] := htok
        have hs : sentencesOf s = [s] := sentencesOf_of_tokenize_nil h0
        have hgn : getNextChunk s = (trim s, []) := by
          have := getNextChunk_eq hs
          simpa [joinSp, trim_nil] using this
        constructor
        · rw [hs]
          show (getNextChunk s).2 = []
          rw [hgn]
        · intro i hi
          rw [hs] at hi
          have hi0 : i = 0 := by simpa using hi
          subst hi0
          rw [hs]
          show (getNextChunk s).1 = trim ([s].getD 0 [])
          rw [hgn]
          rfl)
    | cons t ts =>
      have hsent : sentencesOf s = t :: ts := sentencesOf_of_tokenize_cons htok
      have hshapes : ∀ u ∈ ts, tokShape u := by
        intro u hu
        exact tokenize_shape u (by rw [htok]; exact List.mem_cons_of_mem _ hu)
      have hgoodts : ∀ u ∈ ts, goodTok u = true := by
        intro u hu
        exact hgood u (by rw [htok]; exact List.mem_cons_of_mem _ hu)
      have hgn : getNextChunk s = (trim t, trim (joinSp ts)) := getNextChunk_eq hsent
      have hrtok : tokenize (trim (joinSp ts)) = shiftTokens ts :=
        tokenize_trim_joinSp ts hshapes hgoodts
      have hlen2 : (tokenize (trim (joinSp ts))).length ≤ k := by
        rw [hrtok, shiftTokens_length]
        have := hk
        rw [htok] at this
        simpa using this
      have hgood2 : ∀ u ∈ tokenize (trim (joinSp ts)), goodTok u = true := by
        rw [hrtok]
        exact shiftTokens_good hgoodts
      obtain ⟨ihterm, ihchunk⟩ := ih (trim (joinSp ts)) hlen2 hgood2
      constructor
      · rw [hsent, List.length_cons, iterRemaining_shift, hgn]
        cases ts with
        | nil =>
          show iterRemaining (trim (joinSp ([] : List Str))) 0 = []
          rfl
        | cons w ws =>
          have hsr : sentencesOf (trim (joinSp (w :: ws))) = shiftTokens (w :: ws) := by
            rw [sentencesOf, hrtok]
            rfl
          have hlen3 : (sentencesOf (trim (joinSp (w :: ws)))).length = (w :: ws).length := by
            rw [hsr, shiftTokens_length]
          rw [← hlen3]
          exact ihterm
      · intro i hi
        rw [hsent] at hi ⊢
        cases i with
        | zero =>
          show (getNextChunk (iterRemaining s 0)).1 = trim ((t :: ts).getD 0 [])
          show (getNextChunk s).1 = trim ((t :: ts).getD 0 [])
          rw [hgn]
          rfl
        | succ j =>
          have hj : j < ts.length := by simpa using hi
          have hshiftc : chunkAt s (j + 1) = chunkAt (trim (joinSp ts)) j := by
            rw [chunkAt, chunkAt, iterRemaining_shift, hgn]
          rw [hshiftc]
          cases ts with
          | nil => simp at hj
          | cons w ws =>
            have hsr : sentencesOf (trim (joinSp (w :: ws))) = shiftTokens (w :: ws) := by
              rw [sentencesOf, hrtok]
              rfl
            have hjr : j < (sentencesOf (trim (joinSp (w :: ws)))).length := by
              rw [hsr, shiftTokens_length]
              exact hj
            rw [ihchunk j hjr, hsr, shiftTokens_getD_trim (w :: ws) j hj]
            simp [List.getD_cons_succ]

theorem getNextChunk_fst_eq_nil_iff (r : Str) : (getNextChunk r).1 = [] ↔ trim r = [] := by
  cases htok : tokenize r with
  | nil =>
    have hs := sentencesOf_of_tokenize_nil htok
    rw [getNextChunk_eq hs]
  | cons t ts =>
    have hs := sentencesOf_of_tokenize_cons htok
    rw [getNextChunk_eq hs]
    have hsh : tokShape t := tokenize_shape t (by rw [htok]; exact List.mem_cons_self _ _)
    have h1 : trim t ≠ [] := trim_ne_nil_of_shape hsh
    have h2 : trim r ≠ [] := by
      intro h
      have hall := trim_eq_nil_iff.mp h
      have h3 : tokenize r = [] :=
        tokenize_nil_of_no_term (fun x hx => white_not_term (hall x hx))
      rw [htok] at h3
      cases h3
    simp [h1, h2]

theorem getD_mem_of_lt : ∀ (l : List Str) (i : Nat), i < l.length → l.getD i [] ∈ l := by
  intro l
  induction l with
  | nil => intro i hi; simp at hi
  | cons x xs ih =>
    intro i hi
    cases i with
    | zero => simp
    | succ j =>
      simp only [List.getD_cons_succ]
      exact List.mem_cons_of_mem _ (ih j (by simpa using hi))

end NewsNest

namespace NewsNest

/-- Claim C5 (amended): starting from any text whose sentence tokens each
contain a non-whitespace character before their terminator run, repeatedly
applying getNextChunk to its own remaining output reaches the empty string
after exactly one step per sentence; the i-th chunk is the i-th sentence of
the tokenization, trimmed, and every later chunk is empty.  Moreover, for
every input, getNextChunk returns an empty chunk exactly when the input is
empty or whitespace-only (not only when it is empty). -/
theorem getNextChunk_stream_amended (s : Str)
    (hgood : ∀ u ∈ tokenize s, goodTok u = true) :
    iterRemaining s (sentencesOf s).length = [] ∧
    (∀ i < (sentencesOf s).length, chunkAt s i = trim ((sentencesOf s).getD i [])) ∧
    (∀ i < (sentencesOf s).length, tokenize s ≠ [] → chunkAt s i ≠ []) ∧
    (∀ i, (sentencesOf s).length ≤ i → chunkAt s i = []) ∧
    ∀ r : Str, (getNextChunk r).1 = [] ↔ trim r = [] := by
  obtain ⟨h1, h2⟩ := stream_spec (tokenize s).length s le_rfl hgood
  refine ⟨h1, h2, ?_, ?_, getNextChunk_fst_eq_nil_iff⟩
  · intro i hi hne
    rw [h2 i hi]
    obtain ⟨t0, ts0, htok⟩ : ∃ t0 ts0, tokenize s = t0 :: ts0 := by
      cases htk : tokenize s with
      | nil => exact absurd htk hne
      | cons a l => exact ⟨a, l, rfl⟩
    have hs := sentencesOf_of_tokenize_cons htok
    apply trim_ne_nil_of_shape
    apply tokenize_shape
    rw [htok]
    rw [hs] at hi ⊢
    exact getD_mem_of_lt _ i hi
  · intro i hN
    rw [chunkAt]
    have hnil : iterRemaining s i = [] := by
      have hsplit : i = (sentencesOf s).length + (i - (sentencesOf s).length) := by omega
      rw [hsplit, iterRemaining_add, h1, iterRemaining_nil_input]
    rw [hnil, getNextChunk_nil_input]

/-- Claim C5 witness: a three-sentence text with well-formed sentences is
streamed into exactly its three trimmed sentences and then the empty
chunk. -/
theorem getNextChunk_stream_amended_witness :
    (∀ u ∈ tokenize "One. Two go. Three!".data, goodTok u = true) ∧
    iterRemaining "One. Two go. Three!".data 3 = [] ∧
    chunkAt "One. Two go. Three!".data 0 = "One.".data ∧
    chunkAt "One. Two go. Three!".data 1 = "Two go.".data ∧
    chunkAt "One. Two go. Three!".data 2 = "Three!".data := by
  have h := getNextChunk_stream_amended "One. Two go. Three!".data (by decide)
  have hlen : (sentencesOf "One. Two go. Three!".data).length = 3 := by decide
  refine ⟨by decide, ?_, ?_, ?_, ?_⟩
  · have h1 := h.1
    rw [hlen] at h1
    exact h1
  · have h2 := h.2.1 0 (by rw [hlen]; omega)
    rw [h2]
    decide
  · have h2 := h.2.1 1 (by rw [hlen]; omega)
    rw [h2]
    decide
  · have h2 := h.2.1 2 (by rw [hlen]; omega)
    rw [h2]
    decide

/-- Claim C5 counterexample: on the text whose middle sentence token has a
whitespace-only body, the iterated getNextChunk stream terminates but skips
that sentence entirely, so the non-empty chunks do not cover every sentence
of the original tokenization; also, getNextChunk returns an empty chunk on a
non-empty whitespace-only input. -/
theorem getNextChunk_stream_counterexample :
    (tokenize "A. .!B.".data).map trim = ["A.".data, ".!".data, "B.".data] ∧
    chunkAt "A. .!B.".data 0 = "A.".data ∧
    chunkAt "A. .!B.".data 1 = "B.".data ∧
    chunkAt "A. .!B.".data 2 = [] ∧
    iterRemaining "A. .!B.".data 2 = [] ∧
    [chunkAt "A. .!B.".data 0, chunkAt "A. .!B.".data 1] ≠
      (tokenize "A. .!B.".data).map trim ∧
    ((getNextChunk "   ".data).1 = [] ∧ "   ".data ≠ []) := by decide

/-- Claim C4: when the blank-line split yields at least two non-empty
paragraphs, splitIntoMessageChunks returns exactly those paragraphs, trimmed,
in order. -/
theorem splitIntoMessageChunks_paragraphs (text : Str)
    (h : 2 ≤ (paragraphsOf text).length) :
    splitIntoMessageChunks text = paragraphsOf text := by
  simp only [splitIntoMessageChunks]
  rw [if_pos (by omega : 1 < (paragraphsOf text).length)]

/-- Claim C4 witness: the two-paragraph example from the specification is
split into exactly its two trimmed paragraphs. -/
theorem splitIntoMessageChunks_paragraphs_witness :
    2 ≤ (paragraphsOf "Headline one happened. Here\x27s why it matters. \n\nIn other news, headline two happened too.".data).length ∧
    splitIntoMessageChunks "Headline one happened. Here\x27s why it matters. \n\nIn other news, headline two happened too.".data =
      ["Headline one happened. Here\x27s why it matters.".data,
       "In other news, headline two happened too.".data] := by
  constructor
  · decide
  · rw [splitIntoMessageChunks_paragraphs _ (by decide)]
    decide

theorem sentencesOf_ne_nil (s : Str) : sentencesOf s ≠ [] := by
  cases h : tokenize s with
  | nil => rw [sentencesOf_of_tokenize_nil h]; simp
  | cons t ts => rw [sentencesOf_of_tokenize_cons h]; simp

/-- Claim C10: when the first sentence token alone exceeds 150 characters,
getInitialChunk returns an empty initial chunk and the whole space-rejoined,
trimmed tokenization as remaining. -/
theorem getInitialChunk_overlong_first (text : Str) (_hne : text ≠ [])
    (hlong : 150 < ((sentencesOf text).headD []).length) :
    getInitialChunk text = ([], trim (joinSp (sentencesOf text))) := by
  obtain ⟨s0, rest, hs⟩ := List.exists_cons_of_ne_nil (sentencesOf_ne_nil text)
  rw [hs] at hlong
  simp only [List.headD_cons] at hlong
  have hloop : giLoop (sentencesOf text) 0 [] = ([], joinSp (s0 :: rest)) := by
    rw [hs]
    simp only [giLoop, List.nil_append]
    rw [if_neg (by intro hcl; omega)]
  have hjoin : joinSp (s0 :: rest) ≠ [] := by
    have hs0 : s0 ≠ [] := by
      intro h0
      rw [h0] at hlong
      simp at hlong
    cases rest with
    | nil => simpa [joinSp] using hs0
    | cons w ws =>
      rw [joinSp_cons_cons]
      simp
  simp only [getInitialChunk]
  rw [hloop]
  rw [if_neg (by simp [hjoin]), if_neg (by simp [hjoin])]
  rw [hs]
  rfl

/-- Claim C10 witness: a single 152-character sentence produces an empty
initial chunk with everything in remaining. -/
theorem getInitialChunk_overlong_first_witness :
    (List.replicate 151 'a' ++ ['.']) ≠ ([] : Str) ∧
    150 < ((sentencesOf (List.replicate 151 'a' ++ ['.'])).headD []).length ∧
    getInitialChunk (List.replicate 151 'a' ++ ['.']) =
      ([], trim (joinSp (sentencesOf (List.replicate 151 'a' ++ ['.'])))) := by
  refine ⟨by decide, by decide, ?_⟩
  exact getInitialChunk_overlong_first _ (by decide) (by decide)

theorem nonWS_append (a b : Str) : nonWS (a ++ b) = nonWS a ++ nonWS b :=
  List.filter_append a b

theorem nonWS_dropWhileWhite (s : Str) : nonWS (s.dropWhile isWhite) = nonWS s := by
  conv_rhs => rw [← List.takeWhile_append_dropWhile (p := isWhite) (l := s)]
  rw [nonWS_append]
  have h : nonWS (s.takeWhile isWhite) = [] := by
    rw [nonWS, List.filter_eq_nil_iff]
    intro x hx
    simp [List.mem_takeWhile_imp hx]
  rw [h]
  rfl

theorem nonWS_reverse (s : Str) : nonWS s.reverse = (nonWS s).reverse :=
  List.filter_reverse _ _

theorem nonWS_trim (s : Str) : nonWS (trim s) = nonWS s := by
  rw [trim, trimRight, nonWS_reverse, nonWS_dropWhileWhite, nonWS_reverse,
    List.reverse_reverse]
  exact nonWS_dropWhileWhite s

theorem nonWS_cons_space (s : Str) : nonWS (' ' :: s) = nonWS s := rfl

theorem concatStr_cons (x : Str) (l : List Str) :
    concatStr (x :: l) = x ++ concatStr l := rfl

theorem concatStr_append (l1 l2 : List Str) :
    concatStr (l1 ++ l2) = concatStr l1 ++ concatStr l2 := by
  induction l1 with
  | nil => rfl
  | cons x xs ih => simp [concatStr_cons, ih]

theorem nonWS_joinSp : ∀ l : List Str, nonWS (joinSp l) = nonWS (concatStr l) := by
  intro l
  induction l with
  | nil => rfl
  | cons x xs ih =>
    cases xs with
    | nil => simp [joinSp, concatStr_cons, concatStr]
    | cons y ys =>
      rw [joinSp_cons_cons, nonWS_append, nonWS_cons_space, ih, concatStr_cons,
        nonWS_append, concatStr_cons, nonWS_append, concatStr_cons, nonWS_append]

theorem giLoop_break : ∀ (sents : List Str) (i : Nat) (ini : Str),
    (giLoop sents i ini).2 ≠ [] →
    ∃ taken rest, sents = taken ++ rest ∧ (giLoop sents i ini).1 = ini ++ concatStr taken ∧
      (giLoop sents i ini).2 = joinSp rest ∧ rest ≠ [] := by
  intro sents
  induction sents with
  | nil => intro i ini h; simp [giLoop] at h
  | cons sentence rest ih =>
    intro i ini h
    by_cases hc : (ini ++ sentence).length ≤ 150 ∧ i < 2
    · have heq : giLoop (sentence :: rest) i ini = giLoop rest (i + 1) (ini ++ sentence) := by
        simp only [giLoop]
        rw [if_pos hc]
      rw [heq] at h ⊢
      obtain ⟨taken, rest2, hdec, h1, h2, h3⟩ := ih (i + 1) (ini ++ sentence) h
      refine ⟨sentence :: taken, rest2, by simp [hdec], ?_, h2, h3⟩
      rw [h1, concatStr_cons]
      simp
    · have heq : giLoop (sentence :: rest) i ini = (ini, joinSp (sentence :: rest)) := by
        simp only [giLoop]
        rw [if_neg hc]
      rw [heq]
      exact ⟨[], sentence :: rest, rfl, by simp [concatStr], rfl, by simp⟩

/-- Claim C6 (amended): whenever the sentence-accumulation loop of
getInitialChunk itself produces a non-empty remainder, the concatenation
initial plus a space plus remaining preserves exactly the non-whitespace
characters of the concatenated sentence tokenization of the text, in order.
Characters of the text outside its tokenization (a leading terminator run,
or a trailing fragment with no terminal punctuation) are dropped, and the
length-based fallback may also drop the period at the cut, so preservation
is relative to the tokenization and restricted to the loop case. -/
theorem getInitialChunk_content (text : Str)
    (h : (giLoop (sentencesOf text) 0 []).2 ≠ []) :
    nonWS ((getInitialChunk text).1 ++ ' ' :: (getInitialChunk text).2) =
      nonWS (concatStr (sentencesOf text)) := by
  obtain ⟨taken, rest, hdec, h1, h2, hne⟩ := giLoop_break (sentencesOf text) 0 [] h
  have hout : getInitialChunk text =
      (trim (giLoop (sentencesOf text) 0 []).1, trim (giLoop (sentencesOf text) 0 []).2) := by
    simp only [getInitialChunk]
    rw [if_neg (by simp [h]), if_neg h]
  rw [hout, h1, h2, List.nil_append]
  rw [nonWS_append, nonWS_cons_space, nonWS_trim, nonWS_trim, nonWS_joinSp,
    ← nonWS_append, ← concatStr_append, ← hdec]

/-- Claim C6 witness: on a four-sentence text the loop stops after two
sentences with a non-empty remainder, and no non-whitespace character of the
tokenization is lost. -/
theorem getInitialChunk_content_witness :
    (giLoop (sentencesOf "A. B. C. D.".data) 0 []).2 ≠ [] ∧
    nonWS ((getInitialChunk "A. B. C. D.".data).1 ++
        ' ' :: (getInitialChunk "A. B. C. D.".data).2) =
      nonWS (concatStr (sentencesOf "A. B. C. D.".data)) :=
  ⟨by decide, getInitialChunk_content "A. B. C. D.".data (by decide)⟩

/-- Claim C6 counterexample: for the text whose trailing fragment has no
terminal punctuation, getInitialChunk returns a non-empty remaining, yet the
non-whitespace character d of the original text appears in neither part, so
rejoining initial and remaining does not reconstruct the text modulo
whitespace normalisation. -/
theorem getInitialChunk_content_counterexample :
    (getInitialChunk "A. B. C. d".data).2 ≠ [] ∧
    getInitialChunk "A. B. C. d".data = ("A. B.".data, "C.".data) ∧
    nonWS ((getInitialChunk "A. B. C. d".data).1 ++
        ' ' :: (getInitialChunk "A. B. C. d".data).2) ≠
      nonWS "A. B. C. d".data := by decide

/-- Claim C7: evaluation at the failing input.  The text is longer than 150
characters, its sentence loop leaves no remainder, it contains no
period-space pair, and it contains spaces at and before the 150-character
mark (the last one at index 149); the specified behaviour is to cut at that
space, but lastIndexOf returns -1, which is truthy in the JavaScript
or-chain, so the function instead returns an empty initial part and the whole
trimmed text as remaining. -/
theorem getInitialChunk_fallback_eval :
    150 < ("Hi! a b a b a b a b a b a b a b a b a b a b a b a b a b a b a b a b a b a b a b a b a b a b a b a b a b a b a b a b a b a b a b a b a b a b a b a b a b ".data).length ∧
    (giLoop (sentencesOf "Hi! a b a b a b a b a b a b a b a b a b a b a b a b a b a b a b a b a b a b a b a b a b a b a b a b a b a b a b a b a b a b a b a b a b a b a b a b a b ".data) 0 []).2 = [] ∧
    jsLastIndexOf "Hi! a b a b a b a b a b a b a b a b a b a b a b a b a b a b a b a b a b a b a b a b a b a b a b a b a b a b a b a b a b a b a b a b a b a b a b a b a b ".data ". ".data 150 = -1 ∧
    jsLastIndexOf "Hi! a b a b a b a b a b a b a b a b a b a b a b a b a b a b a b a b a b a b a b a b a b a b a b a b a b a b a b a b a b a b a b a b a b a b a b a b a b ".data " ".data 150 = 149 ∧
    getInitialChunk "Hi! a b a b a b a b a b a b a b a b a b a b a b a b a b a b a b a b a b a b a b a b a b a b a b a b a b a b a b a b a b a b a b a b a b a b a b a b a b ".data =
      ([], trim "Hi! a b a b a b a b a b a b a b a b a b a b a b a b a b a b a b a b a b a b a b a b a b a b a b a b a b a b a b a b a b a b a b a b a b a b a b a b a b ".data) := by
  decide

/- JSON values as produced and consumed by the chart, timeline and
scoreboard payloads.  Numbers are modelled as integers (the payloads the
codec round-trips are data tables; fractional formatting is outside the
scope of the text protocol being verified). -/
mutual
inductive Json where
  | null : Json
  | jbool : Bool → Json
  | jnum : Int → Json
  | jstr : Str → Json
  | jarr : JsonArr → Json
  | jobj : JsonObj → Json
inductive JsonArr where
  | anil : JsonArr
  | acons : Json → JsonArr → JsonArr
inductive JsonObj where
  | onil : JsonObj
  | ocons : Str → Json → JsonObj → JsonObj
end

deriving instance DecidableEq for Json

/-- Digit character of a decimal digit. -/
def digitChar (d : Nat) : Char :=
  if d = 0 then '0' else if d = 1 then '1' else if d = 2 then '2'
  else if d = 3 then '3' else if d = 4 then '4' else if d = 5 then '5'
  else if d = 6 then '6' else if d = 7 then '7' else if d = 8 then '8' else '9'

/-- Fuelled decimal representation of a natural number. -/
def natReprGo : Nat → Nat → Str
  | 0, _ => []
  | fuel + 1, n => if n < 10 then [digitChar n] else natReprGo fuel (n / 10) ++ [digitChar (n % 10)]

/-- Decimal representation of a natural number. -/
def natRepr (n : Nat) : Str := natReprGo (n + 1) n

/-- Model of the JavaScript decimal rendering of an integer. -/
def intRepr (k : Int) : Str :=
  if k < 0 then '-' :: natRepr k.natAbs else natRepr k.toNat

/-- Model of the string escaping performed by JSON.stringify on the
characters that need escaping here. -/
def escChar (c : Char) : Str :=
  if c = '"' then ['\\', '"']
  else if c = '\\' then ['\\', '\\']
  else if c = '\n' then ['\\', 'n']
  else if c = '\t' then ['\\', 't']
  else if c = '\r' then ['\\', 'r']
  else [c]

/-- Escape a whole string for embedding in a JSON string literal. -/
def escStr (s : Str) : Str := s.foldr (fun c acc => escChar c ++ acc) []

/- Model of the ECMAScript built-in JSON.stringify on the modelled value
space: no added whitespace, double-quoted escaped strings, comma-separated
arrays and objects. -/
mutual
def Json.stringify : Json → Str
  | .null => ['n', 'u', 'l', 'l']
  | .jbool true => ['t', 'r', 'u', 'e']
  | .jbool false => ['f', 'a', 'l', 's', 'e']
  | .jnum k => intRepr k
  | .jstr s => '"' :: escStr s ++ ['"']
  | .jarr a => '[' :: JsonArr.elems a ++ [']']
  | .jobj o => '{' :: JsonObj.fields o ++ ['}']
def JsonArr.elems : JsonArr → Str
  | .anil => []
  | .acons v .anil => Json.stringify v
  | .acons v rest => Json.stringify v ++ ',' :: JsonArr.elems rest
def JsonObj.fields : JsonObj → Str
  | .onil => []
  | .ocons k v .onil => ('"' :: escStr k ++ ['"']) ++ ':' :: Json.stringify v
  | .ocons k v rest =>
    (('"' :: escStr k ++ ['"']) ++ ':' :: Json.stringify v) ++ ',' :: JsonObj.fields rest
end

/-- Decimal digit test used by the number grammar. -/
def isDigitChar (c : Char) : Bool := '0' ≤ c && c ≤ '9'

/-- Value of a digit list, most significant first. -/
def natFromDigits (ds : Str) : Nat := ds.foldl (fun acc c => acc * 10 + (c.toNat - 48)) 0

/-- Parse a non-empty run of digits. -/
def parseDigits (s : Str) : Option (Nat × Str) :=
  let ds := s.takeWhile isDigitChar
  if ds = [] then none else some (natFromDigits ds, s.dropWhile isDigitChar)

/-- Decoding of the string escapes accepted by the modelled JSON.parse. -/
def escDecode (e : Char) : Option Char :=
  if e = '"' then some '"'
  else if e = '\\' then some '\\'
  else if e = '/' then some '/'
  else if e = 'n' then some '\n'
  else if e = 't' then some '\t'
  else if e = 'r' then some '\r'
  else none

/-- Body of a JSON string literal after the opening quote: collect characters
up to the closing quote, decoding backslash escapes. -/
def parseStrGo : Str → Option (Str × Str)
  | [] => none
  | '"' :: rest => some ([], rest)
  | '\\' :: [] => none
  | '\\' :: e :: rest =>
    match escDecode e with
    | some c => (parseStrGo rest).map (fun p => (c :: p.1, p.2))
    | none => none
  | c :: rest => (parseStrGo rest).map (fun p => (c :: p.1, p.2))

/-- Whitespace skipping of JSON.parse. -/
def skipWsJ (s : Str) : Str := s.dropWhile isWhite

/- Model of the ECMAScript built-in JSON.parse on the modelled grammar
(integers for numbers, the escapes of escDecode; a recursive-descent reading
of the JSON grammar driven by a fuel bounded by the input length). -/
mutual
def parseVal : Nat → Str → Option (Json × Str)
  | 0, _ => none
  | fuel + 1, s =>
    match s with
    | 'n' :: 'u' :: 'l' :: 'l' :: rest => some (.null, rest)
    | 't' :: 'r' :: 'u' :: 'e' :: rest => some (.jbool true, rest)
    | 'f' :: 'a' :: 'l' :: 's' :: 'e' :: rest => some (.jbool false, rest)
    | '"' :: rest => (parseStrGo rest).map (fun p => (.jstr p.1, p.2))
    | '[' :: rest =>
      (match skipWsJ rest with
       | ']' :: rest2 => some (.jarr .anil, rest2)
       | rest2 => (parseElems fuel rest2).map (fun p => (.jarr p.1, p.2)))
    | '{' :: rest =>
      (match skipWsJ rest with
       | '}' :: rest2 => some (.jobj .onil, rest2)
       | rest2 => (parseFields fuel rest2).map (fun p => (.jobj p.1, p.2)))
    | '-' :: rest => (parseDigits rest).map (fun p => (.jnum (-(p.1 : Int)), p.2))
    | other => (parseDigits other).map (fun p => (.jnum (p.1 : Int), p.2))
def parseElems : Nat → Str → Option (JsonArr × Str)
  | 0, _ => none
  | fuel + 1, s =>
    match parseVal fuel (skipWsJ s) with
    | none => none
    | some (v, rest) =>
      match skipWsJ rest with
      | ',' :: rest2 => (parseElems fuel rest2).map (fun p => (.acons v p.1, p.2))
      | ']' :: rest2 => some (.acons v .anil, rest2)
      | _ => none
def parseFields : Nat → Str → Option (JsonObj × Str)
  | 0, _ => none
  | fuel + 1, s =>
    match skipWsJ s with
    | '"' :: rest =>
      (match parseStrGo rest with
       | none => none
       | some (k, rest2) =>
         match skipWsJ rest2 with
         | ':' :: rest3 =>
           (match parseVal fuel (skipWsJ rest3) with
            | none => none
            | some (v, rest4) =>
              match skipWsJ rest4 with
              | ',' :: rest5 => (parseFields fuel rest5).map (fun p => (.ocons k v p.1, p.2))
              | '}' :: rest5 => some (.ocons k v .onil, rest5)
              | _ => none)
         | _ => none)
    | _ => none
end

/-- Model of JSON.parse: parse one value and require only whitespace to
remain; any other outcome is the thrown SyntaxError, modelled as none. -/
def parseJson (s : Str) : Option Json :=
  match parseVal (s.length + 1) (skipWsJ s) with
  | some (v, rest) => if skipWsJ rest = [] then some v else none
  | none => none

/-- Model of the brace-depth and string-aware scanner extractJsonObject of
ConversationScreen.tsx: the loop state is the in-string flag, the
escape-next flag, the running brace count (a JavaScript number, so it may go
negative) and the recorded position of the first opening brace; the scan
returns at the closing brace that takes the count to zero after a start was
recorded. -/
def exLoop : Str → Bool → Bool → Int → Option Nat → Nat → Option (Nat × Nat)
  | [], _, _, _, _, _ => none
  | c :: rest, inStr, esc, depth, js, i =>
    if esc then exLoop rest inStr false depth js (i + 1)
    else if c = '\\' then exLoop rest inStr true depth js (i + 1)
    else if c = '"' then exLoop rest (!inStr) false depth js (i + 1)
    else if inStr then exLoop rest inStr false depth js (i + 1)
    else if c = '{' then
      exLoop rest inStr false (depth + 1)
        (match js with | none => some i | some j => some j) (i + 1)
    else if c = '}' then
      (match js with
       | some j => if depth - 1 = 0 then some (j, i + 1)
                   else exLoop rest inStr false (depth - 1) (some j) (i + 1)
       | none => exLoop rest inStr false (depth - 1) none (i + 1))
    else exLoop rest inStr false depth js (i + 1)

/-- Model of extractJsonObject: scan from startIdx and return the balanced
JSON object substring together with the index one past its closing brace. -/
def extractJsonObject (text : Str) (startIdx : Nat) : Option (Str × Nat) :=
  match exLoop (text.drop startIdx) false false 0 none startIdx with
  | some (js, endIdx) => some ((text.drop js).take (endIdx - js), endIdx)
  | none => none

/-- Message kinds of the in-memory Message type. -/
inductive MsgType where
  | user : MsgType
  | agent : MsgType
  | system : MsgType
deriving DecidableEq

/-- Roles of the persisted turn format. -/
inductive Role where
  | user : Role
  | model : Role
deriving DecidableEq

/-- Article reference card attached to a message. -/
structure ArticleCard where
  headline : Str
  sourceName : Option Str := none
  url : Option Str := none
  tags : Option (List Str) := none
deriving DecidableEq

/-- The in-memory Message shape of ConversationScreen.tsx.  A JavaScript
field that is null or undefined is modelled as none. -/
structure Msg where
  id : Str
  type : MsgType
  text : Str
  agentName : Option Str := none
  isRouting : Bool := false
  hasArticleReference : Bool := false
  articleCards : Option (List ArticleCard) := none
  chart : Option Json := none
  timeline : Option Json := none
  scoreboard : Option Json := none
deriving DecidableEq

/-- A persisted ConversationHistoryItem turn. -/
structure HistoryItem where
  role : Role
  parts : List Str
deriving DecidableEq

/-- JavaScript truthiness of an optional string: undefined and the empty
string are falsy. -/
def optTruthy : Option Str → Bool
  | none => false
  | some s => !s.isEmpty

/-- JavaScript or-chain step on an optional string against a fallback. -/
def jsOrOpt (a : Option Str) (b : Str) : Str :=
  if optTruthy a then a.getD [] else b

/-- Model of Array.prototype.join with separator a single newline. -/
def joinNl : List Str → Str
  | [] => []
  | [x] => x
  | x :: xs => x ++ '\n' :: joinNl xs

/-- Model of Array.prototype.join with separator a comma and a space. -/
def joinComma : List Str → Str
  | [] => []
  | [x] => x
  | x :: xs => x ++ ',' :: ' ' :: joinComma xs

/-- Model of formatArticleCardsForLog: a numbered line per card with the
optional em-dash source, bracketed tag list and parenthesised url, under an
[ARTICLES] header line. -/
def formatArticleCardsForLog (cards : List ArticleCard) : Str :=
  joinNl ("[ARTICLES]".data ::
    cards.enum.map (fun p =>
      natRepr (p.1 + 1) ++ ". ".data ++ p.2.headline ++
      (match p.2.sourceName with
       | some s => " — ".data ++ s
       | none => []) ++
      (match p.2.tags with
       | some ts => if 0 < ts.length then " [tags: ".data ++ joinComma ts ++ "]".data else []
       | none => []) ++
      (match p.2.url with
       | some u => " (".data ++ u ++ ")".data
       | none => [])))

/-- Model of formatChartForLog. -/
def formatChartForLog (c : Json) : Str := "[CHART]\n".data ++ Json.stringify c

/-- Model of formatTimelineForLog. -/
def formatTimelineForLog (t : Json) : Str := "[TIMELINE]\n".data ++ Json.stringify t

/-- Model of formatScoreboardForLog. -/
def formatScoreboardForLog (sb : Json) : Str := "[SCOREBOARD]\n".data ++ Json.stringify sb

/-- Appending of one serialized block to the first chunk text, guarded by
the truthiness checks of the source. -/
def appendBlock (t block : Str) : Str :=
  if block = [] then t else if t = [] then block else t ++ "\n\n".data ++ block

/-- The textToStore computation for the first buffered chunk of an agent
run: chart, timeline, scoreboard and article blocks are appended in this
fixed order when present. -/
def attachBlocks (m : Msg) : Str :=
  let t1 := match m.chart with
    | some c => appendBlock m.text (formatChartForLog c)
    | none => m.text
  let t2 := match m.timeline with
    | some t => appendBlock t1 (formatTimelineForLog t)
    | none => t1
  let t3 := match m.scoreboard with
    | some sb => appendBlock t2 (formatScoreboardForLog sb)
    | none => t2
  match m.articleCards with
  | some cards => if 0 < cards.length then appendBlock t3 (formatArticleCardsForLog cards) else t3
  | none => t3

/-- Flush of the buffered agent response chunks into one model turn: join
with single spaces and append the agent suffix when a name is known. -/
def flushTurn (buf : List Str) (lastName : Option Str) : HistoryItem :=
  { role := .model,
    parts := [if optTruthy lastName then
                joinSp buf ++ " [Agent: ".data ++ lastName.getD [] ++ "]".data
              else joinSp buf] }

/-- Main loop of buildConversationHistory: skip the welcome message (id 1,
agent type) and routing messages; flush the agent buffer at each user
message and at end of list; track the most recently seen agent name across
the whole list; attach the serialized blocks only to the first chunk of each
run; skip agent messages with empty text and system messages. -/
def buildCH : List Msg → List Str → Option Str → List HistoryItem
  | [], buf, last => if buf ≠ [] then [flushTurn buf last] else []
  | m :: rest, buf, last =>
    if m.id = "1".data ∧ m.type = .agent then buildCH rest buf last
    else if m.isRouting then buildCH rest buf last
    else match m.type with
      | .user =>
        (if buf ≠ [] then [flushTurn buf last] else []) ++
          ({ role := .user, parts := [m.text] } : HistoryItem) :: buildCH rest [] last
      | .agent =>
        if m.text ≠ [] then
          buildCH rest
            (buf ++ [if buf = [] then attachBlocks m else m.text])
            (if optTruthy m.agentName then m.agentName else last)
        else buildCH rest buf last
      | .system => buildCH rest buf last

/-- Model of buildConversationHistory of ConversationScreen.tsx. -/
def buildConversationHistory (messages : List Msg) : List HistoryItem :=
  buildCH messages [] none

/-- Model of String.prototype.indexOf: index of the first occurrence. -/
def indexOfSub (pat : Str) : Str → Option Nat
  | [] => if pat.isPrefixOf ([] : Str) then some 0 else none
  | c :: rest =>
    if pat.isPrefixOf (c :: rest) then some 0
    else (indexOfSub pat rest).map (fun i => i + 1)

/-- Model of String.prototype.split on a single character. -/
def splitCharGo (sep : Char) : Str → Str → List Str
  | [], cur => [cur.reverse]
  | c :: rest, cur =>
    if c = sep then cur.reverse :: splitCharGo sep rest []
    else splitCharGo sep rest (c :: cur)

/-- Split a string on every occurrence of one character. -/
def splitChar (sep : Char) (s : Str) : List Str := splitCharGo sep s []

/-- Case-insensitive matching of a pattern against a string start, as done
by the i-flagged regexes of the source. -/
def ciPrefix (pat s : Str) : Bool :=
  (pat.map Char.toLower).isPrefixOf (s.map Char.toLower)

/-- Attempted match, at the start of s, of a bracket tag regex of the form
open-bracket name colon, then optional whitespace, then one or more
non-closing-bracket characters (captured), then the closing bracket, then
only whitespace to the end of the string.  Returns the captured group.  The
greedy whitespace run backtracks one character when the gap before the
closing bracket is whitespace-only, exactly as the regex engine does. -/
def bracketTagHere (pre : Str) (s : Str) : Option Str :=
  if ciPrefix pre s then
    let afterTag := s.drop pre.length
    let gap := afterTag.takeWhile (fun c => c ≠ ']')
    match afterTag.dropWhile (fun c => c ≠ ']') with
    | ']' :: tail =>
      if gap ≠ [] ∧ tail.all isWhite then
        some (if trimLeft gap = [] then gap.drop (gap.length - 1) else trimLeft gap)
      else none
    | _ => none
  else none

/-- Leftmost match of an end-anchored bracket tag: the matched span (a
suffix of the input) and the captured group. -/
def findBracketTag (pre : Str) : Str → Option (Str × Str)
  | [] => none
  | c :: rest =>
    match bracketTagHere pre (c :: rest) with
    | some g => some (c :: rest, g)
    | none => findBracketTag pre rest

/-- Model of the capture of the trailing agent tag regex. -/
def matchAgentTag (M : Str) : Option Str := (findBracketTag "[agent:".data M).map (fun p => p.2)

/-- Whether the strip regex, which allows leading whitespace before the
agent tag, matches at the start of s. -/
def tagAfterWs : Str → Bool
  | [] => false
  | c :: rest =>
    if (bracketTagHere "[agent:".data (c :: rest)).isSome then true
    else if isWhite c then tagAfterWs rest else false

/-- Leftmost start of the replace regex match for the agent tag. -/
def findReplaceStart : Str → Option Nat
  | [] => none
  | c :: rest =>
    if tagAfterWs (c :: rest) then some 0
    else (findReplaceStart rest).map (fun i => i + 1)

/-- Model of text.replace of the end-anchored agent tag with the empty
string: because the match extends to the end, the kept part is the text
before the match start. -/
def stripAgentTag (M : Str) : Str :=
  match findReplaceStart M with
  | some p => M.take p
  | none => M

/-- Model of String.prototype.replace with a plain string pattern: remove
the first occurrence. -/
def removeFirstOcc (s pat : Str) : Str :=
  match indexOfSub pat s with
  | some i => s.take i ++ s.drop (i + pat.length)
  | none => s

/-- Strip of the leading line number of an article line. -/
def numPrefixStrip (line : Str) : Str :=
  let ds := line.takeWhile isDigitChar
  if ds ≠ [] then
    match line.drop ds.length with
    | '.' :: rest => rest.dropWhile isWhite
    | _ => line
  else line

/-- Attempted match, at the start of s, of the end-anchored parenthesised
url regex: an opening paren, a case-insensitive http or https scheme, more
non-closing-paren characters, the closing paren and trailing whitespace.
Returns the matched span (the whole suffix) and the captured url. -/
def urlTrailHere (s : Str) : Option (Str × Str) :=
  match s with
  | '(' :: rest =>
    let inner := rest.takeWhile (fun c => c ≠ ')')
    (match rest.dropWhile (fun c => c ≠ ')') with
     | ')' :: tail =>
       if tail.all isWhite ∧
           ((ciPrefix "http://".data inner ∧ 8 ≤ inner.length) ∨
            (ciPrefix "https://".data inner ∧ 9 ≤ inner.length)) then
         some (s, inner)
       else none
     | _ => none)
  | _ => none

/-- Leftmost match of the trailing url pattern. -/
def findUrlTrail : Str → Option (Str × Str)
  | [] => none
  | c :: rest =>
    match urlTrailHere (c :: rest) with
    | some r => some r
    | none => findUrlTrail rest

/-- Model of the per-line card recovery of parseSavedArticlesBlock: strip
the number, extract the trailing url, then the trailing tags block, then
split headline from source on the first em dash; drop the line when the
headline comes out empty. -/
def parseArticleLine (line : Str) : Option ArticleCard :=
  let content := numPrefixStrip line
  let urlRes := findUrlTrail content
  let url : Option Str := urlRes.map (fun r => trim r.2)
  let contentNoUrl := match urlRes with
    | some r => trim (removeFirstOcc content r.1)
    | none => content
  let tagRes := findBracketTag "[tags:".data contentNoUrl
  let tags : Option (List Str) :=
    tagRes.map (fun p => ((splitChar ',' p.2).map trim).filter (fun t => t ≠ []))
  let contentNoTags := match tagRes with
    | some p => trim (removeFirstOcc contentNoUrl p.1)
    | none => contentNoUrl
  let hs := match indexOfSub "—".data contentNoTags with
    | some d => (trim (contentNoTags.take d), some (trim (contentNoTags.drop (d + 1))))
    | none => (contentNoTags, none)
  if hs.1 ≠ [] then
    some { headline := hs.1,
           sourceName := match hs.2 with
             | some s => if s = [] then none else some s
             | none => none,
           url := match url with
             | some u => if u = [] then none else some u
             | none => none,
           tags := match tags with
             | some t => if t ≠ [] then some t else none
             | none => none }
  else none

/-- Model of parseSavedArticlesBlock: find the [ARTICLES] header, keep the
trailing-whitespace-trimmed text before it, and parse every non-empty
trimmed line after it into a card. -/
def parseSavedArticlesBlock (input : Str) : Str × List ArticleCard :=
  if input = [] then (input, [])
  else
    match indexOfSub "[ARTICLES]".data input with
    | none => (input, [])
    | some idx =>
      (trimRight (input.take idx),
       (((splitChar '\n' (input.drop (idx + 10))).map trim).filter
          (fun l => l ≠ [])).filterMap parseArticleLine)

/-- One marker stage of parseSavedVisualizations: find the marker, find the
newline after it, scan the balanced JSON object, parse it; on success remove
the block together with trailing whitespace, on a parse failure remove the
block only (fail-open), in both cases trimming the part before the marker
and the reassembled text. -/
def parseVizBlock (marker : Str) (input : Str) : Str × Option Json :=
  match indexOfSub marker input with
  | none => (input, none)
  | some idx =>
    match indexOfSub "\n".data (input.drop (idx + marker.length)) with
    | none => (input, none)
    | some nl =>
      match extractJsonObject input (idx + marker.length + nl + 1) with
      | none => (input, none)
      | some (json, blockEnd) =>
        match parseJson json with
        | some v =>
          let tw := ((input.drop blockEnd).takeWhile isWhite).length
          let removeEnd := blockEnd + tw
          (trim (trim (input.take idx) ++
            (if removeEnd < input.length then input.drop removeEnd else [])), some v)
        | none =>
          (trim (trim (input.take idx) ++
            (if blockEnd < input.length then input.drop blockEnd else [])), none)

/-- Model of parseSavedVisualizations: the chart, timeline and scoreboard
stages applied in sequence; the source guards against empty input and wraps
the whole computation in a catch that cannot fire in the model. -/
def parseSavedVisualizations (input : Str) :
    Str × Option Json × Option Json × Option Json :=
  if input = [] then (input, none, none, none)
  else
    let s1 := parseVizBlock "[CHART]".data input
    let s2 := parseVizBlock "[TIMELINE]".data s1.1
    let s3 := parseVizBlock "[SCOREBOARD]".data s2.1
    (s3.1, s1.2, s2.2, s3.2)

/-- Hydration of one persisted turn (the body of the history.forEach of
loadSession): a user turn becomes one user message; a model turn is
tag-stripped, visualization-parsed, article-parsed, trimmed, re-chunked,
and the attachments go only to the first chunk.  Returns the loaded
messages and the updated last-known agent name.  Generated ids carry no
information in the model. -/
def loadOne (defaultName : Str) (h : HistoryItem) (lastLocal : Option Str) :
    List Msg × Option Str :=
  let text := joinSp h.parts
  match h.role with
  | .user => ([{ id := "loaded-user".data, type := .user, text := text }], lastLocal)
  | .model =>
    let nameOpt := (matchAgentTag text).map trim
    let viz := parseSavedVisualizations (trim (stripAgentTag text))
    let parsed := parseSavedArticlesBlock viz.1
    let cleaned := trim parsed.1
    let last2 := if optTruthy nameOpt then nameOpt else lastLocal
    ((splitIntoMessageChunks cleaned).enum.map (fun p =>
      { id := "loaded-agent".data, type := .agent, text := p.2,
        agentName := some (jsOrOpt nameOpt (jsOrOpt last2 defaultName)),
        chart := if p.1 = 0 then viz.2.1 else none,
        timeline := if p.1 = 0 then viz.2.2.1 else none,
        scoreboard := if p.1 = 0 then viz.2.2.2 else none,
        articleCards := if p.1 = 0 ∧ parsed.2 ≠ [] then some parsed.2 else none }),
     last2)

/-- Hydration of a whole persisted session. -/
def loadMessagesGo (defaultName : Str) : List HistoryItem → Option Str → List Msg
  | [], _ => []
  | h :: rest, lastLocal =>
    (loadOne defaultName h lastLocal).1 ++
      loadMessagesGo defaultName rest (loadOne defaultName h lastLocal).2

/-- Model of the session hydration of loadSession. -/
def loadMessages (defaultName : Str) (history : List HistoryItem) : List Msg :=
  loadMessagesGo defaultName history none

/-- Outcome of persistChatOnLeave as observed by its caller. -/
inductive PersistOutcome where
  | skipped : PersistOutcome
  | saved : Option Str → PersistOutcome
  | failedLogged : Str → PersistOutcome
deriving DecidableEq

/-- Model of persistChatOnLeave: skip when no email is known or the encoded
history lacks a user or a model turn; otherwise run the save, whose outcome
is the saveResult argument; a save error is caught, logged and swallowed.
The Except return type records whether anything escapes to the caller: every
branch returns ok. -/
def persistChatOnLeave (email : Option Str) (messages : List Msg)
    (saveResult : Except Str (Option Str)) : Except Str PersistOutcome :=
  if optTruthy email = false then .ok .skipped
  else
    let history := buildConversationHistory messages
    if ¬ (history.any fun h => h.role == Role.user) ∨
       ¬ (history.any fun h => h.role == Role.model) then .ok .skipped
    else
      match saveResult with
      | .ok rid => .ok (.saved rid)
      | .error err => .ok (.failedLogged err)

/-- The component state touched by the synchronous part of
handleSendMessage (before its await) and by the unmount cleanup effect. -/
structure ScreenState where
  messages : List Msg
  inputText : Str
  isLoading : Bool
  streamingIntervalActive : Bool
  messageQueueIntervalActive : Bool
  loadingTimeoutsActive : Nat
  loadingMessage : Str
deriving DecidableEq

/-- Model of the unmount cleanup effect: clear both reveal-loop intervals
and the pending loading-message timeouts. -/
def cleanupOnUnmount (s : ScreenState) : ScreenState :=
  { s with
      streamingIntervalActive := false
      messageQueueIntervalActive := false
      loadingTimeoutsActive := 0 }

/-- Model of the synchronous prefix of handleSendMessage: guard on a
non-empty message and not already loading; append the user message when the
text was typed rather than auto-sent; clear the input; set loading; replace
the loading-message timeouts with two fresh ones.  The streaming and
message-queue interval refs are not touched by this code path. -/
def handleSendMessageStart (s : ScreenState) (messageText : Option Str) : ScreenState :=
  let message := match messageText with
    | some t => t
    | none => trim s.inputText
  if message = [] ∨ s.isLoading then s
  else
    let s1 : ScreenState := match messageText with
      | none => { s with messages :=
          s.messages ++ [{ id := "user-new".data, type := .user, text := message }] }
      | some _ => s
    { s1 with
        inputText := []
        isLoading := true
        loadingTimeoutsActive := 2
        loadingMessage := "Processing query...".data }

/-- Third message of the cross-run example: an agent message with no agent
name, arriving after a user turn. -/
def exC2Third : Msg := { id := "4".data, type := .agent, text := "b".data }

/-- Message list with an agent name observed only in the first run. -/
def exC2Msgs : List Msg :=
  [{ id := "2".data, type := .agent, text := "a".data, agentName := some "Flynn".data },
   { id := "3".data, type := .user, text := "u".data },
   exC2Third]

/-- Single agent message of the Flynn example from the specification. -/
def exFlynnMsg : Msg :=
  { id := "2".data, type := .agent, text := "Scores are in.".data,
    agentName := some "Flynn the Falcon".data }

/-- Claim C2 counterexample: no agent name is observed in the run that
follows the user turn (its only message carries none), yet the flushed third
turn still appends the suffix [Agent: Flynn] remembered from the earlier
run, so the suffix is not omitted when no name was observed in the run. -/
theorem buildConversationHistory_crossrun_counterexample :
    exC2Third.agentName = none ∧
    buildConversationHistory exC2Msgs =
      [{ role := .model, parts := ["a [Agent: Flynn]".data] },
       { role := .user, parts := ["u".data] },
       { role := .model, parts := ["b [Agent: Flynn]".data] }] ∧
    "b [Agent: Flynn]".data ≠ "b".data := by decide

/-- The flush behaviour in the amended wording: buffered chunk texts joined
with single spaces, followed by the agent suffix built from the most
recently seen agent name anywhere earlier in the list, omitted only when no
(non-empty) agent name has been observed at all. -/
def flushTurnSpec (buf : List Str) (lastName : Option Str) : HistoryItem :=
  { role := .model,
    parts := [joinSp buf ++
      (if optTruthy lastName then " [Agent: ".data ++ lastName.getD [] ++ "]".data
       else [])] }

/-- Claim C2 (amended): every flush joins the buffered chunk texts with a
single space and appends the agent suffix from the most recently seen agent
name across the entire message list so far (the tracker is never reset
between runs), omitting it only when no agent name has been seen anywhere
earlier; in particular the single Flynn the Falcon message encodes to the
turn of the specification, and a run without any agent name still receives
the suffix remembered from an earlier run. -/
theorem buildConversationHistory_flush_amended :
    (∀ (buf : List Str) (lastName : Option Str),
        flushTurn buf lastName = flushTurnSpec buf lastName) ∧
    buildConversationHistory [exFlynnMsg] =
      [{ role := .model, parts := ["Scores are in. [Agent: Flynn the Falcon]".data] }] ∧
    buildConversationHistory exC2Msgs =
      [{ role := .model, parts := ["a [Agent: Flynn]".data] },
       { role := .user, parts := ["u".data] },
       { role := .model, parts := ["b [Agent: Flynn]".data] }] := by
  refine ⟨?_, by decide, by decide⟩
  intro buf lastName
  by_cases h : optTruthy lastName = true
  · simp [flushTurn, flushTurnSpec, h]
  · simp [flushTurn, flushTurnSpec, h]

/-- Claim C9: the encoded history is persisted exactly when an email is
known and it contains at least one user turn and at least one model turn;
a failing save is caught and logged, and every branch returns normally, so
nothing is thrown to the caller and navigation proceeds. -/
theorem persistChatOnLeave_spec (email : Option Str) (messages : List Msg)
    (saveResult : Except Str (Option Str)) :
    (∃ o, persistChatOnLeave email messages saveResult = Except.ok o) ∧
    ((persistChatOnLeave email messages saveResult ≠ Except.ok PersistOutcome.skipped) ↔
      (optTruthy email = true ∧
       (buildConversationHistory messages).any (fun h => h.role == Role.user) = true ∧
       (buildConversationHistory messages).any (fun h => h.role == Role.model) = true)) ∧
    (∀ err : Str,
      saveResult = Except.error err →
      optTruthy email = true →
      (buildConversationHistory messages).any (fun h => h.role == Role.user) = true →
      (buildConversationHistory messages).any (fun h => h.role == Role.model) = true →
      persistChatOnLeave email messages saveResult =
        Except.ok (PersistOutcome.failedLogged err)) := by
  unfold persistChatOnLeave
  by_cases he : optTruthy email = false
  · simp [he]
  · have he2 : optTruthy email = true := by
      cases h2 : optTruthy email
      · exact absurd h2 he
      · rfl
    by_cases hu : (buildConversationHistory messages).any (fun h => h.role == Role.user) = true
    · by_cases hm : (buildConversationHistory messages).any (fun h => h.role == Role.model) = true
      · cases saveResult with
        | ok rid => simp [he, he2, hu, hm]
        | error err => simp [he, he2, hu, hm]
      · cases saveResult with
        | ok rid => simp [he, he2, hu, hm]
        | error err => simp [he, he2, hu, hm]
    · cases saveResult with
      | ok rid => simp [he, he2, hu]
      | error err => simp [he, he2, hu]

/-- Claim C9 witness: with an email, one user and one agent message, a
failing save is swallowed and reported as logged. -/
theorem persistChatOnLeave_spec_witness :
    persistChatOnLeave (some "a@b.c".data)
      [{ id := "2".data, type := .user, text := "u".data },
       { id := "3".data, type := .agent, text := "t".data }]
      (Except.error "network down".data) =
      Except.ok (PersistOutcome.failedLogged "network down".data) :=
  (persistChatOnLeave_spec (some "a@b.c".data)
      [{ id := "2".data, type := .user, text := "u".data },
       { id := "3".data, type := .agent, text := "t".data }]
      (Except.error "network down".data)).2.2 "network down".data rfl
    (by decide) (by decide) (by decide)

/-- Claim C8 counterexample: with both reveal loops active from a previous
response and the guard satisfied, the synchronous start of a new send leaves
both loops active (it clears only the loading-message timeouts), so the new
send does not first cancel the in-flight loops and the previous message's
reveal can continue concurrently. -/
theorem handleSendMessageStart_counterexample :
    (handleSendMessageStart
      { messages := [], inputText := "hi".data, isLoading := false,
        streamingIntervalActive := true, messageQueueIntervalActive := true,
        loadingTimeoutsActive := 1, loadingMessage := [] } none).streamingIntervalActive
      = true ∧
    (handleSendMessageStart
      { messages := [], inputText := "hi".data, isLoading := false,
        streamingIntervalActive := true, messageQueueIntervalActive := true,
        loadingTimeoutsActive := 1, loadingMessage := [] } none).messageQueueIntervalActive
      = true ∧
    (handleSendMessageStart
      { messages := [], inputText := "hi".data, isLoading := false,
        streamingIntervalActive := true, messageQueueIntervalActive := true,
        loadingTimeoutsActive := 1, loadingMessage := [] } none).isLoading = true := by
  decide

/-- Claim C8 (amended): starting a new send never touches the streaming or
message-queue interval state: any in-flight reveal loops from the previous
response keep running independently.  The loops are cancelled by the unmount
cleanup effect (or when they complete on their own), not by
handleSendMessage. -/
theorem handleSendMessageStart_preserves_loops (s : ScreenState) (mt : Option Str) :
    (handleSendMessageStart s mt).streamingIntervalActive = s.streamingIntervalActive ∧
    (handleSendMessageStart s mt).messageQueueIntervalActive = s.messageQueueIntervalActive ∧
    (cleanupOnUnmount s).streamingIntervalActive = false ∧
    (cleanupOnUnmount s).messageQueueIntervalActive = false := by
  refine ⟨?_, ?_, rfl, rfl⟩ <;>
    · simp only [handleSendMessageStart]
      cases mt <;> (split <;> rfl)

/-- Claim C3: a parse failure of one bracket block is handled locally and
fail-open.  First conjunct: whenever the marker, the newline after it and a
balanced JSON candidate are found but JSON parsing of the candidate fails,
the stage still removes the marker and the candidate from the text,
preserving the text before the marker (trimmed) and after the block, and
reports the payload as absent.  Second conjunct: the visualization decoder
always runs the chart, timeline and scoreboard stages in sequence on the
progressively cleaned text, so a failure in one block never prevents
decoding of the remaining blocks, and the total function never aborts
hydration. -/
theorem parseSavedVisualizations_fail_open :
    (∀ (marker input : Str) (idx nl : Nat) (json : Str) (blockEnd : Nat),
      indexOfSub marker input = some idx →
      indexOfSub "\n".data (input.drop (idx + marker.length)) = some nl →
      extractJsonObject input (idx + marker.length + nl + 1) = some (json, blockEnd) →
      parseJson json = none →
      parseVizBlock marker input =
        (trim (trim (input.take idx) ++
          (if blockEnd < input.length then input.drop blockEnd else [])), none)) ∧
    (∀ input : Str, input ≠ [] →
      parseSavedVisualizations input =
        ((parseVizBlock "[SCOREBOARD]".data
            (parseVizBlock "[TIMELINE]".data
              (parseVizBlock "[CHART]".data input).1).1).1,
         (parseVizBlock "[CHART]".data input).2,
         (parseVizBlock "[TIMELINE]".data (parseVizBlock "[CHART]".data input).1).2,
         (parseVizBlock "[SCOREBOARD]".data
            (parseVizBlock "[TIMELINE]".data
              (parseVizBlock "[CHART]".data input).1).1).2)) := by
  constructor
  · intro marker input idx nl json blockEnd hidx hnl hex hfail
    unfold parseVizBlock
    simp only [hidx, hnl, hex, hfail]
  · intro input hne
    unfold parseSavedVisualizations
    rw [if_neg hne]

/-- Claim C3 witness: the balanced but malformed candidate between braces
fails to parse; the block is removed, the surrounding text survives, the
remaining stages run, and the decoder returns normally. -/
theorem parseSavedVisualizations_fail_open_witness :
    parseJson "{]}".data = none ∧
    parseVizBlock "[CHART]".data "News today. [CHART]\n{]} More text.".data =
      ("News today. More text.".data, none) ∧
    parseSavedVisualizations "News today. [CHART]\n{]} More text.".data =
      ("News today. More text.".data, none, none, none) := by
  refine ⟨by decide, ?_, ?_⟩
  · have h := parseSavedVisualizations_fail_open.1 "[CHART]".data
      "News today. [CHART]\n{]} More text.".data 12 0 "{]}".data 23
      (by decide) (by decide) (by decide) (by decide)
    rw [h]
    decide
  · have h2 := parseSavedVisualizations_fail_open.2
      "News today. [CHART]\n{]} More text.".data (by decide)
    rw [h2]
    decide

/-- Chart payload of the round-trip counterexample. -/
def exC1Chart : Json := Json.jobj (.ocons "t".data (.jnum 1) .onil)

/-- Round-trip counterexample messages: the agent text itself contains the
literal marker [CHART] followed by a newline. -/
def exC1Msgs : List Msg :=
  [{ id := "2".data, type := .user, text := "u".data },
   { id := "3".data, type := .agent, text := "See [CHART]\nnow".data,
     agentName := some "Flynn".data, chart := some exC1Chart }]

/-- Claim C1 counterexample: encoding a user message and an agent message
whose text contains a literal [CHART] marker, then decoding, keeps the chart
and the agent name but loses part of the visible text: the decoder removes
everything from the first (literal) marker through the serialized chart, so
the decoded agent text is only See and the words now and [CHART] are gone;
the concatenated visible agent text does not equal the original agent text
modulo whitespace normalization, so text content is lost. -/
theorem roundtrip_chart_counterexample :
    buildConversationHistory exC1Msgs =
      [{ role := Role.user, parts := ["u".data] },
       { role := Role.model,
         parts := ["See [CHART]\nnow\n\n[CHART]\n\x7b\"t\":1\x7d [Agent: Flynn]".data] }] ∧
    loadMessages "Polly the Parrot".data (buildConversationHistory exC1Msgs) =
      [{ id := "loaded-user".data, type := MsgType.user, text := "u".data },
       { id := "loaded-agent".data, type := MsgType.agent, text := "See".data,
         agentName := some "Flynn".data, chart := some exC1Chart }] ∧
    nonWS (concatStr ((loadMessages "Polly the Parrot".data
        (buildConversationHistory exC1Msgs)).filterMap
      (fun m => match m.type with | MsgType.agent => some m.text | _ => none))) ≠
      nonWS "See [CHART]\nnow".data := by decide

theorem chunksGo_cons_close (sentence : Str) (rest : List Str) (i : Nat) (cur : Str)
    (h : 150 < (if cur = [] then sentence else cur ++ ' ' :: sentence).length ∨
      (cur ≠ [] ∧ i % 2 = 0 ∧ 0 < i)) :
    chunksGo (sentence :: rest) i cur =
      (if cur = [] then [] else [trim cur]) ++ chunksGo rest (i + 1) sentence := by
  simp only [chunksGo]
  rw [if_pos h]

theorem chunksGo_cons_keep (sentence : Str) (rest : List Str) (i : Nat) (cur : Str)
    (h : ¬ (150 < (if cur = [] then sentence else cur ++ ' ' :: sentence).length ∨
      (cur ≠ [] ∧ i % 2 = 0 ∧ 0 < i))) :
    chunksGo (sentence :: rest) i cur =
      chunksGo rest (i + 1) (if cur = [] then sentence else cur ++ ' ' :: sentence) := by
  simp only [chunksGo]
  rw [if_neg h]

theorem nonWS_concat_trim_single (cur : Str) :
    nonWS (concatStr [trim cur]) = nonWS cur := by
  show nonWS (trim cur ++ []) = nonWS cur
  rw [List.append_nil, nonWS_trim]

theorem chunksGo_nonWS : ∀ (sents : List Str) (i : Nat) (cur : Str),
    nonWS (concatStr (chunksGo sents i cur)) = nonWS cur ++ nonWS (concatStr sents) := by
  intro sents
  induction sents with
  | nil =>
    intro i cur
    by_cases h : cur = []
    · subst h
      rfl
    · show nonWS (concatStr (if cur = [] then [] else [trim cur])) = _
      rw [if_neg h, nonWS_concat_trim_single]
      show nonWS cur = nonWS cur ++ nonWS []
      simp [nonWS]
  | cons sentence rest ih =>
    intro i cur
    rw [concatStr_cons, nonWS_append]
    by_cases hc : 150 < (if cur = [] then sentence else cur ++ ' ' :: sentence).length ∨
      (cur ≠ [] ∧ i % 2 = 0 ∧ 0 < i)
    · rw [chunksGo_cons_close sentence rest i cur hc, concatStr_append, nonWS_append, ih]
      by_cases h : cur = []
      · subst h
        show nonWS (concatStr []) ++ _ = _
        simp [concatStr, nonWS]
      · rw [if_neg h, nonWS_concat_trim_single]
    · rw [chunksGo_cons_keep sentence rest i cur hc, ih]
      by_cases h : cur = []
      · subst h
        show nonWS sentence ++ _ = nonWS [] ++ _
        simp [nonWS]
      · rw [if_neg h, nonWS_append, nonWS_cons_space]
        simp

theorem nonWS_eq_nil_of_white {s : Str} (h : ∀ c ∈ s, isWhite c = true) :
    nonWS s = [] := by
  rw [nonWS, List.filter_eq_nil_iff]
  intro a ha
  simp [h a ha]

theorem nonWS_dropWhile_of_white {p : Char → Bool} (hp : ∀ x, p x = true → isWhite x = true)
    (s : Str) : nonWS (s.dropWhile p) = nonWS s := by
  conv_rhs => rw [← List.takeWhile_append_dropWhile (p := p) (l := s)]
  rw [nonWS_append,
    nonWS_eq_nil_of_white (fun c hc => hp c (List.mem_takeWhile_imp hc))]
  rfl

theorem nonWS_cons (c : Char) (s : Str) : nonWS (c :: s) = nonWS [c] ++ nonWS s := by
  by_cases h : isWhite c = true
  · simp [nonWS, List.filter_cons, h]
  · simp [nonWS, List.filter_cons, h]

theorem sbGo_step_nonWSueue (c : Char) (cur cs : Str) :
    nonWS ((c :: cur).reverse) ++ nonWS cs = nonWS cur.reverse ++ nonWS (c :: cs) := by
  rw [show (c :: cur).reverse = cur.reverse ++ [c] from by simp,
    nonWS_append, nonWS_cons c cs, List.append_assoc]

theorem sbGo_eq_shift (fuel : Nat) (c : Char) (cs cur : Str) (h : ¬ c = '\n') :
    sbGo (fuel + 1) (c :: cs) cur = sbGo fuel cs (c :: cur) := by
  simp only [sbGo]
  rw [if_neg h]

theorem sbGo_eq_cut (fuel : Nat) (ds : Str) (cur : Str) :
    sbGo (fuel + 1) ('\n' :: '\n' :: ds) cur =
      cur.reverse :: sbGo fuel (('\n' :: ds).dropWhile (fun d => d = '\n')) [] := rfl

theorem sbGo_eq_keep_nl (fuel : Nat) (cs cur : Str)
    (h : cs = [] ∨ ∃ d ds, cs = d :: ds ∧ ¬ d = '\n') :
    sbGo (fuel + 1) ('\n' :: cs) cur = sbGo fuel cs ('\n' :: cur) := by
  rcases h with rfl | ⟨d, ds, rfl, hd⟩
  · rfl
  · simp only [sbGo, if_true]
    split
    · rename_i heq
      cases heq
      exact absurd rfl hd
    · rfl

theorem sbGo_nonWS : ∀ (fuel : Nat) (s : Str) (cur : Str), s.length ≤ fuel →
    nonWS (concatStr (sbGo fuel s cur)) = nonWS cur.reverse ++ nonWS s := by
  intro fuel
  induction fuel with
  | zero =>
    intro s cur hs
    have h0 : s = [] := List.length_eq_zero.mp (Nat.le_zero.mp hs)
    subst h0
    show nonWS (cur.reverse ++ []) = nonWS cur.reverse ++ nonWS []
    rw [List.append_nil, show nonWS ([] : Str) = [] from rfl, List.append_nil]
  | succ fuel ih =>
    intro s cur hs
    match s with
    | [] =>
      show nonWS (cur.reverse ++ []) = nonWS cur.reverse ++ nonWS []
      rw [List.append_nil, show nonWS ([] : Str) = [] from rfl, List.append_nil]
    | c :: cs =>
      have hcs : cs.length ≤ fuel := by simpa using hs
      by_cases hcn : c = '\n'
      · subst hcn
        match cs with
        | [] =>
          rw [sbGo_eq_keep_nl fuel [] cur (Or.inl rfl), ih [] ('\n' :: cur) (by simp)]
          exact sbGo_step_nonWSueue '\n' cur []
        | d :: ds =>
          by_cases hd : d = '\n'
          · subst hd
            rw [sbGo_eq_cut fuel ds cur, concatStr_cons, nonWS_append]
            rw [ih (('\n' :: ds).dropWhile (fun x => x = '\n')) []
              (le_trans (List.dropWhile_sublist _).length_le (by simpa using hcs))]
            rw [nonWS_dropWhile_of_white (p := fun x => x = '\n')
              (fun x hx => by simp only [decide_eq_true_eq] at hx; simp [hx, isWhite]) ('\n' :: ds)]
            rw [nonWS_cons '\n' ('\n' :: ds)]
            have hnl : nonWS ['\n'] = [] := rfl
            rw [hnl]
            rfl
          · rw [sbGo_eq_keep_nl fuel (d :: ds) cur (Or.inr ⟨d, ds, rfl, hd⟩),
              ih (d :: ds) ('\n' :: cur) hcs]
            exact sbGo_step_nonWSueue '\n' cur (d :: ds)
      · rw [sbGo_eq_shift fuel c cs cur hcn, ih cs (c :: cur) hcs]
        exact sbGo_step_nonWSueue c cur cs

theorem splitBlank_nonWS (s : Str) :
    nonWS (concatStr (splitBlank s)) = nonWS s := by
  rw [splitBlank, sbGo_nonWS s.length s [] le_rfl]
  rfl

theorem paragraphsOf_nonWS (s : Str) :
    nonWS (concatStr (paragraphsOf s)) = nonWS s := by
  rw [paragraphsOf]
  have h : ∀ l : List Str,
      nonWS (concatStr (((l.map trim).filter (fun p => !p.isEmpty)))) =
        nonWS (concatStr l) := by
    intro l
    induction l with
    | nil => rfl
    | cons x xs ih =>
      simp only [List.map_cons, List.filter_cons]
      by_cases hx : (trim x).isEmpty = true
      · have hnil : trim x = [] := by simpa [List.isEmpty_iff] using hx
        have hwhite : nonWS x = [] :=
          nonWS_eq_nil_of_white (trim_eq_nil_iff.mp hnil)
        rw [if_neg (by simp [hx])]
        rw [ih, concatStr_cons, nonWS_append, hwhite]
        rfl
      · rw [if_pos (by simp [hx])]
        rw [concatStr_cons, concatStr_cons, nonWS_append, nonWS_append, nonWS_trim, ih]
  rw [h (splitBlank s), splitBlank_nonWS]

theorem splitIntoMessageChunks_nonWS (text : Str)
    (h : nonWS (concatStr (sentencesOf text)) = nonWS text) :
    nonWS (concatStr (splitIntoMessageChunks text)) = nonWS text := by
  simp only [splitIntoMessageChunks]
  by_cases hp : 1 < (paragraphsOf text).length
  · rw [if_pos hp]
    exact paragraphsOf_nonWS text
  · rw [if_neg hp]
    by_cases hs : (sentencesOf text).length ≤ 2
    · rw [if_pos hs, nonWS_concat_trim_single]
    · rw [if_neg hs]
      by_cases hz : chunksGo (sentencesOf text) 0 [] = []
      · rw [if_pos hz, nonWS_concat_trim_single]
      · rw [if_neg hz, chunksGo_nonWS]
        exact h

theorem splitIntoMessageChunks_ne_nil (text : Str) :
    splitIntoMessageChunks text ≠ [] := by
  simp only [splitIntoMessageChunks]
  by_cases hp : 1 < (paragraphsOf text).length
  · rw [if_pos hp]
    intro hn
    rw [hn] at hp
    simp at hp
  · rw [if_neg hp]
    by_cases hs : (sentencesOf text).length ≤ 2
    · rw [if_pos hs]
      simp
    · rw [if_neg hs]
      by_cases hz : chunksGo (sentencesOf text) 0 [] = []
      · rw [if_pos hz]
        simp
      · rw [if_neg hz]
        exact hz

/- JSON round-trip layer: parseJson inverts Json.stringify.  Proved by a
fuel induction over the mutual grammar; sepOk rules out a digit directly
following a rendered number, which never happens inside the grammar. -/

def sepOk : Str → Prop
  | [] => True
  | c :: _ => isDigitChar c = false

theorem takeWhile_append_all {p : Char → Bool} {a : Str} (b : Str)
    (h : ∀ c ∈ a, p c = true) : (a ++ b).takeWhile p = a ++ b.takeWhile p := by
  induction a with
  | nil => rfl
  | cons x xs ih =>
    rw [List.cons_append, List.takeWhile_cons, h x (by simp), if_pos rfl, List.cons_append,
      ih (fun c hc => h c (by simp [hc]))]

theorem dropWhile_append_all {p : Char → Bool} {a : Str} (b : Str)
    (h : ∀ c ∈ a, p c = true) : (a ++ b).dropWhile p = b.dropWhile p := by
  induction a with
  | nil => rfl
  | cons x xs ih =>
    rw [List.cons_append, List.dropWhile_cons, h x (by simp), if_pos rfl,
      ih (fun c hc => h c (by simp [hc]))]

theorem takeWhile_cons_neg {p : Char → Bool} {c : Char} (t : Str) (h : p c = false) :
    (c :: t).takeWhile p = [] := by
  rw [List.takeWhile_cons, h]
  rfl

theorem dropWhile_cons_neg {p : Char → Bool} {c : Char} (t : Str) (h : p c = false) :
    (c :: t).dropWhile p = c :: t := by
  rw [List.dropWhile_cons, h]
  rfl

theorem natReprGo_spec : ∀ fuel n, n < fuel →
    natFromDigits (natReprGo fuel n) = n ∧ natReprGo fuel n ≠ [] ∧
      ∀ c ∈ natReprGo fuel n, isDigitChar c = true := by
  intro fuel
  induction fuel with
  | zero => intro n hn; omega
  | succ fuel ih =>
    intro n hn
    by_cases h10 : n < 10
    · have hd : natReprGo (fuel + 1) n = [digitChar n] := by
        rw [natReprGo, if_pos h10]
      refine ⟨?_, by simp [hd], ?_⟩
      · rw [hd]
        show 0 * 10 + ((digitChar n).toNat - 48) = n
        interval_cases n <;> rfl
      · intro c hc
        rw [hd] at hc
        simp only [List.mem_singleton] at hc
        subst hc
        interval_cases n <;> rfl
    · have hd : natReprGo (fuel + 1) n = natReprGo fuel (n / 10) ++ [digitChar (n % 10)] := by
        rw [natReprGo, if_neg h10]
      have hrec : n / 10 < fuel := by omega
      obtain ⟨hv, hne, hdig⟩ := ih (n / 10) hrec
      have hm : n % 10 < 10 := Nat.mod_lt _ (by norm_num)
      have hmv : (digitChar (n % 10)).toNat - 48 = n % 10 := by
        have := hm
        interval_cases h : (n % 10) <;> rfl
      have hmd : isDigitChar (digitChar (n % 10)) = true := by
        have := hm
        interval_cases h : (n % 10) <;> rfl
      refine ⟨?_, by simp [hd], ?_⟩
      · rw [hd]
        show List.foldl _ 0 _ = n
        rw [List.foldl_append]
        show natFromDigits (natReprGo fuel (n / 10)) * 10 + ((digitChar (n % 10)).toNat - 48) = n
        rw [hv, hmv]
        omega
      · intro c hc
        rw [hd] at hc
        rcases List.mem_append.mp hc with hc | hc
        · exact hdig c hc
        · simp only [List.mem_singleton] at hc
          subst hc
          exact hmd

theorem natRepr_spec (n : Nat) :
    natFromDigits (natRepr n) = n ∧ natRepr n ≠ [] ∧
      ∀ c ∈ natRepr n, isDigitChar c = true :=
  natReprGo_spec (n + 1) n (Nat.lt_succ_self n)

theorem parseDigits_natRepr (n : Nat) (rest : Str) (hrest : sepOk rest) :
    parseDigits (natRepr n ++ rest) = some (n, rest) := by
  obtain ⟨hv, hne, hdig⟩ := natRepr_spec n
  have htw : (natRepr n ++ rest).takeWhile isDigitChar = natRepr n := by
    rw [takeWhile_append_all rest hdig]
    match rest with
    | [] => rw [List.takeWhile_nil, List.append_nil]
    | c :: t =>
      rw [takeWhile_cons_neg t hrest, List.append_nil]
  have hdw : (natRepr n ++ rest).dropWhile isDigitChar = rest := by
    rw [dropWhile_append_all rest hdig]
    match rest with
    | [] => rfl
    | c :: t => exact dropWhile_cons_neg t hrest
  rw [parseDigits]
  simp only [htw, hdw, if_neg hne, hv]

theorem parseStrGo_cons_plain {c : Char} (t : Str) (h1 : ¬ c = '"') (h2 : ¬ c = '\\') :
    parseStrGo (c :: t) = (parseStrGo t).map (fun p => (c :: p.1, p.2)) := by
  rw [parseStrGo.eq_def]
  split
  · rename_i heq
    cases heq
  · rename_i r heq
    rw [List.cons.injEq] at heq
    exact absurd heq.1 h1
  · rename_i heq
    rw [List.cons.injEq] at heq
    exact absurd heq.1 h2
  · rename_i e r heq
    rw [List.cons.injEq] at heq
    exact absurd heq.1 h2
  · rename_i c2 r2 heq
    rw [List.cons.injEq] at heq
    rw [heq.1, heq.2]

theorem parseStrGo_escStr (s rest : Str) :
    parseStrGo (escStr s ++ ('"' :: rest)) = some (s, rest) := by
  induction s with
  | nil => rfl
  | cons c cs ih =>
    have hstep : escStr (c :: cs) = escChar c ++ escStr cs := rfl
    rw [hstep, List.append_assoc]
    by_cases h1 : c = '"'
    · subst h1
      rw [show escChar '"' = ['\\', '"'] from rfl]
      show (parseStrGo (escStr cs ++ ('"' :: rest))).map _ = _
      rw [ih]
      rfl
    · by_cases h2 : c = '\\'
      · subst h2
        rw [show escChar '\\' = ['\\', '\\'] from rfl]
        show (parseStrGo (escStr cs ++ ('"' :: rest))).map _ = _
        rw [ih]
        rfl
      · by_cases h3 : c = '\n'
        · subst h3
          rw [show escChar '\n' = ['\\', 'n'] from rfl]
          show (parseStrGo (escStr cs ++ ('"' :: rest))).map _ = _
          rw [ih]
          rfl
        · by_cases h4 : c = '\t'
          · subst h4
            rw [show escChar '\t' = ['\\', 't'] from rfl]
            show (parseStrGo (escStr cs ++ ('"' :: rest))).map _ = _
            rw [ih]
            rfl
          · by_cases h5 : c = '\r'
            · subst h5
              rw [show escChar '\r' = ['\\', 'r'] from rfl]
              show (parseStrGo (escStr cs ++ ('"' :: rest))).map _ = _
              rw [ih]
              rfl
            · rw [show escChar c = [c] from by
                rw [escChar, if_neg h1, if_neg h2, if_neg h3, if_neg h4, if_neg h5]]
              rw [List.singleton_append, parseStrGo_cons_plain _ h1 h2, ih]
              rfl

theorem digit_facts {c : Char} (h : isDigitChar c = true) :
    isWhite c = false ∧ ¬ c = ']' ∧ ¬ c = 'n' ∧ ¬ c = 't' ∧ ¬ c = 'f' ∧
      ¬ c = '"' ∧ ¬ c = '[' ∧ ¬ c = '\x7b' ∧ ¬ c = '-' ∧ ¬ c = '\x7d' ∧ ¬ c = '\\' := by
  refine ⟨?_, ?_, ?_, ?_, ?_, ?_, ?_, ?_, ?_, ?_, ?_⟩
  · cases hw : isWhite c
    · rfl
    · exfalso
      simp only [isWhite, Bool.or_eq_true, decide_eq_true_eq] at hw
      rcases hw with ((hw | hw) | hw) | hw <;> subst hw <;> exact absurd h (by decide)
  all_goals intro hc
  all_goals subst hc
  all_goals exact absurd h (by decide)

theorem stringify_head (j : Json) :
    ∃ c t, Json.stringify j = c :: t ∧ isWhite c = false ∧ ¬ c = ']' := by
  match j with
  | .null => exact ⟨'n', _, rfl, by decide, by decide⟩
  | .jbool true => exact ⟨'t', _, rfl, by decide, by decide⟩
  | .jbool false => exact ⟨'f', _, rfl, by decide, by decide⟩
  | .jstr s => exact ⟨'"', _, rfl, by decide, by decide⟩
  | .jarr a => exact ⟨'[', _, rfl, by decide, by decide⟩
  | .jobj o => exact ⟨'\x7b', _, rfl, by decide, by decide⟩
  | .jnum k =>
    show ∃ c t, intRepr k = c :: t ∧ _
    by_cases hk : k < 0
    · exact ⟨'-', _, by rw [intRepr, if_pos hk], by decide, by decide⟩
    · rw [intRepr, if_neg hk]
      obtain ⟨hv, hne, hdig⟩ := natRepr_spec k.toNat
      obtain ⟨c, t, hct⟩ := List.exists_cons_of_ne_nil hne
      have hc : isDigitChar c = true := hdig c (by rw [hct]; simp)
      obtain ⟨hw, hrb, _⟩ := digit_facts hc
      exact ⟨c, t, hct, hw, hrb⟩

theorem stringify_ne_nil (j : Json) : Json.stringify j ≠ [] := by
  obtain ⟨c, t, hct, _, _⟩ := stringify_head j
  rw [hct]
  exact List.cons_ne_nil c t

theorem skipWsJ_cons {c : Char} (t : Str) (h : isWhite c = false) :
    skipWsJ (c :: t) = c :: t := by
  rw [skipWsJ]
  exact dropWhile_cons_neg t h

theorem skipWsJ_stringify_append (j : Json) (x : Str) :
    skipWsJ (Json.stringify j ++ x) = Json.stringify j ++ x := by
  obtain ⟨c, t, hct, hw, _⟩ := stringify_head j
  rw [hct, List.cons_append, skipWsJ_cons _ hw]

theorem parseVal_digit_head (fuel : Nat) {c : Char} (t : Str) (h : isDigitChar c = true) :
    parseVal (fuel + 1) (c :: t) =
      (parseDigits (c :: t)).map (fun p => (Json.jnum (p.1 : Int), p.2)) := by
  obtain ⟨_, _, hn, ht, hf, hq, hlb, hob, hmin, _⟩ := digit_facts h
  simp only [parseVal]
  split
  · rename_i heq
    rw [List.cons.injEq] at heq
    exact absurd heq.1 hn
  · rename_i heq
    rw [List.cons.injEq] at heq
    exact absurd heq.1 ht
  · rename_i heq
    rw [List.cons.injEq] at heq
    exact absurd heq.1 hf
  · rename_i heq
    rw [List.cons.injEq] at heq
    exact absurd heq.1 hq
  · rename_i heq
    rw [List.cons.injEq] at heq
    exact absurd heq.1 hlb
  · rename_i heq
    rw [List.cons.injEq] at heq
    exact absurd heq.1 hob
  · rename_i heq
    rw [List.cons.injEq] at heq
    exact absurd heq.1 hmin
  · rfl

theorem skipWs_match_arr (fuel : Nat) (v : Json) (a2 : JsonArr) (y : Str) :
    parseVal (fuel + 1) ('[' :: (JsonArr.elems (.acons v a2) ++ (']' :: y))) =
      (parseElems fuel (JsonArr.elems (.acons v a2) ++ (']' :: y))).map
        (fun p => (Json.jarr p.1, p.2)) := by
  have hE : ∃ z, JsonArr.elems (.acons v a2) ++ (']' :: y) = Json.stringify v ++ z := by
    match a2 with
    | .anil => exact ⟨']' :: y, rfl⟩
    | .acons v2 a3 =>
      refine ⟨',' :: (JsonArr.elems (.acons v2 a3) ++ (']' :: y)), ?_⟩
      show (Json.stringify v ++ (',' :: JsonArr.elems (.acons v2 a3))) ++ (']' :: y) = _
      rw [List.append_assoc]
      rfl
  obtain ⟨z, hz⟩ := hE
  rw [hz]
  obtain ⟨c, t, hct, hw, hrb⟩ := stringify_head v
  have harm : parseVal (fuel + 1) ('[' :: (Json.stringify v ++ z)) =
      (match skipWsJ (Json.stringify v ++ z) with
       | ']' :: rest2 => some (Json.jarr .anil, rest2)
       | rest2 => (parseElems fuel rest2).map (fun p => (Json.jarr p.1, p.2))) := rfl
  rw [harm, skipWsJ_stringify_append, hct, List.cons_append]
  split
  · rename_i heq
    rw [List.cons.injEq] at heq
    exact absurd heq.1 hrb
  · rfl

theorem parseFields_quote (fuel : Nat) (k : Str) (x : Str) :
    parseFields (fuel + 1) ('"' :: (escStr k ++ ('"' :: x))) =
      (match skipWsJ x with
       | ':' :: rest3 =>
         (match parseVal fuel (skipWsJ rest3) with
          | none => none
          | some (v, rest4) =>
            match skipWsJ rest4 with
            | ',' :: rest5 =>
              (parseFields fuel rest5).map (fun p => (JsonObj.ocons k v p.1, p.2))
            | '\x7d' :: rest5 => some (JsonObj.ocons k v .onil, rest5)
            | _ => none)
       | _ => none) := by
  have h1 : parseFields (fuel + 1) ('"' :: (escStr k ++ ('"' :: x))) =
      (match parseStrGo (escStr k ++ ('"' :: x)) with
       | none => none
       | some (kk, rest2) =>
         match skipWsJ rest2 with
         | ':' :: rest3 =>
           (match parseVal fuel (skipWsJ rest3) with
            | none => none
            | some (v, rest4) =>
              match skipWsJ rest4 with
              | ',' :: rest5 =>
                (parseFields fuel rest5).map (fun p => (JsonObj.ocons kk v p.1, p.2))
              | '\x7d' :: rest5 => some (JsonObj.ocons kk v .onil, rest5)
              | _ => none)
         | _ => none) := rfl
  rw [h1, parseStrGo_escStr]

theorem skipWs_match_obj (fuel : Nat) (k : Str) (v : Json) (o2 : JsonObj) (y : Str) :
    parseVal (fuel + 1) ('\x7b' :: (JsonObj.fields (.ocons k v o2) ++ ('\x7d' :: y))) =
      (parseFields fuel (JsonObj.fields (.ocons k v o2) ++ ('\x7d' :: y))).map
        (fun p => (Json.jobj p.1, p.2)) := by
  have hE : ∃ z, JsonObj.fields (.ocons k v o2) ++ ('\x7d' :: y) =
      '"' :: (escStr k ++ z) := by
    match o2 with
    | .onil =>
      refine ⟨'"' :: (':' :: (Json.stringify v ++ ('\x7d' :: y))), ?_⟩
      show (('"' :: (escStr k ++ ['"'])) ++ (':' :: Json.stringify v)) ++ ('\x7d' :: y) = _
      simp
    | .ocons k2 v2 o3 =>
      refine ⟨'"' :: (':' :: (Json.stringify v ++
        (',' :: (JsonObj.fields (.ocons k2 v2 o3) ++ ('\x7d' :: y))))), ?_⟩
      show ((('"' :: (escStr k ++ ['"'])) ++ (':' :: Json.stringify v)) ++
        (',' :: JsonObj.fields (.ocons k2 v2 o3))) ++ ('\x7d' :: y) = _
      simp
  obtain ⟨z, hz⟩ := hE
  rw [hz]
  rfl

theorem parse_stringify_rt : ∀ fuel : Nat,
    (∀ (j : Json) (rest : Str), (Json.stringify j).length ≤ fuel → sepOk rest →
      parseVal fuel (Json.stringify j ++ rest) = some (j, rest)) ∧
    (∀ (v : Json) (a2 : JsonArr) (rest : Str),
      (JsonArr.elems (.acons v a2)).length + 1 ≤ fuel →
      parseElems fuel (JsonArr.elems (.acons v a2) ++ (']' :: rest)) =
        some (.acons v a2, rest)) ∧
    (∀ (k : Str) (v : Json) (o2 : JsonObj) (rest : Str),
      (JsonObj.fields (.ocons k v o2)).length + 1 ≤ fuel →
      parseFields fuel (JsonObj.fields (.ocons k v o2) ++ ('\x7d' :: rest)) =
        some (.ocons k v o2, rest)) := by
  intro fuel
  induction fuel with
  | zero =>
    refine ⟨?_, ?_, ?_⟩
    · intro j rest hlen _
      obtain ⟨c, t, hct, _, _⟩ := stringify_head j
      rw [hct] at hlen
      simp at hlen
    · intro v a2 rest hlen
      omega
    · intro k v o2 rest hlen
      omega
  | succ fuel ih =>
    obtain ⟨ihV, ihA, ihO⟩ := ih
    refine ⟨?_, ?_, ?_⟩
    · intro j rest hlen hsep
      rcases j with _ | b | k | s | a | o
      · rfl
      · rcases b with _ | _
        · rfl
        · rfl
      · by_cases hk : k < 0
        · have hst : Json.stringify (.jnum k) ++ rest = '-' :: (natRepr k.natAbs ++ rest) := by
            show intRepr k ++ rest = _
            rw [intRepr, if_pos hk, List.cons_append]
          rw [hst]
          have harm : parseVal (fuel + 1) ('-' :: (natRepr k.natAbs ++ rest)) =
              (parseDigits (natRepr k.natAbs ++ rest)).map
                (fun p => (Json.jnum (-(p.1 : Int)), p.2)) := rfl
          rw [harm, parseDigits_natRepr _ _ hsep]
          have hk2 : -((k.natAbs : Nat) : Int) = k := by omega
          show some (Json.jnum (-(k.natAbs : Int)), rest) = _
          rw [hk2]
        · have hst : Json.stringify (.jnum k) ++ rest = natRepr k.toNat ++ rest := by
            show intRepr k ++ rest = _
            rw [intRepr, if_neg hk]
          rw [hst]
          obtain ⟨hv, hne, hdig⟩ := natRepr_spec k.toNat
          obtain ⟨c, t, hct⟩ := List.exists_cons_of_ne_nil hne
          have hc : isDigitChar c = true := hdig c (by rw [hct]; simp)
          rw [hct, List.cons_append, parseVal_digit_head fuel _ hc, ← List.cons_append, ← hct,
            parseDigits_natRepr _ _ hsep]
          have hk2 : ((k.toNat : Nat) : Int) = k := by omega
          show some (Json.jnum ((k.toNat : Nat) : Int), rest) = _
          rw [hk2]
      · have hst : Json.stringify (.jstr s) ++ rest = '"' :: (escStr s ++ ('"' :: rest)) := by
          show ('"' :: (escStr s ++ ['"'])) ++ rest = _
          rw [List.cons_append, List.append_assoc, List.singleton_append]
        rw [hst]
        have harm : parseVal (fuel + 1) ('"' :: (escStr s ++ ('"' :: rest))) =
            (parseStrGo (escStr s ++ ('"' :: rest))).map
              (fun p => (Json.jstr p.1, p.2)) := rfl
        rw [harm, parseStrGo_escStr]
        rfl
      · rcases a with _ | ⟨v, a2⟩
        · rfl
        · have hlen2 : (JsonArr.elems (.acons v a2)).length + 1 ≤ fuel := by
            have h1 : Json.stringify (.jarr (.acons v a2)) =
                '[' :: (JsonArr.elems (.acons v a2) ++ [']']) := rfl
            rw [h1] at hlen
            simp [List.length_append] at hlen
            omega
          have hst : Json.stringify (.jarr (.acons v a2)) ++ rest =
              '[' :: (JsonArr.elems (.acons v a2) ++ (']' :: rest)) := by
            show ('[' :: (JsonArr.elems (.acons v a2) ++ [']'])) ++ rest = _
            rw [List.cons_append, List.append_assoc, List.singleton_append]
          rw [hst, skipWs_match_arr fuel v a2 rest, ihA v a2 rest hlen2]
          rfl
      · rcases o with _ | ⟨k, v, o2⟩
        · rfl
        · have hlen2 : (JsonObj.fields (.ocons k v o2)).length + 1 ≤ fuel := by
            have h1 : Json.stringify (.jobj (.ocons k v o2)) =
                '\x7b' :: (JsonObj.fields (.ocons k v o2) ++ ['\x7d']) := rfl
            rw [h1] at hlen
            simp [List.length_append] at hlen
            omega
          have hst : Json.stringify (.jobj (.ocons k v o2)) ++ rest =
              '\x7b' :: (JsonObj.fields (.ocons k v o2) ++ ('\x7d' :: rest)) := by
            show ('\x7b' :: (JsonObj.fields (.ocons k v o2) ++ ['\x7d'])) ++ rest = _
            rw [List.cons_append, List.append_assoc, List.singleton_append]
          rw [hst, skipWs_match_obj fuel k v o2 rest, ihO k v o2 rest hlen2]
          rfl
    · intro v a2 rest hlen
      rcases a2 with _ | ⟨v2, a3⟩
      · have h1 : JsonArr.elems (.acons v .anil) = Json.stringify v := rfl
        have hv : (Json.stringify v).length ≤ fuel := by
          rw [h1] at hlen
          omega
        rw [h1]
        simp only [parseElems]
        rw [skipWsJ_stringify_append, ihV v (']' :: rest) hv rfl]
        rfl
      · have h1 : JsonArr.elems (.acons v (.acons v2 a3)) =
            Json.stringify v ++ (',' :: JsonArr.elems (.acons v2 a3)) := rfl
        have hv : (Json.stringify v).length ≤ fuel ∧
            (JsonArr.elems (.acons v2 a3)).length + 1 ≤ fuel := by
          rw [h1] at hlen
          have h3 : 0 < (Json.stringify v).length :=
            List.length_pos.mpr (stringify_ne_nil v)
          simp [List.length_append] at hlen
          omega
        rw [h1, List.append_assoc, List.cons_append]
        simp only [parseElems]
        rw [skipWsJ_stringify_append,
          ihV v (',' :: (JsonArr.elems (.acons v2 a3) ++ (']' :: rest))) hv.1 rfl]
        show (parseElems fuel (JsonArr.elems (.acons v2 a3) ++ (']' :: rest))).map
          (fun p => (JsonArr.acons v p.1, p.2)) = _
        rw [ihA v2 a3 rest hv.2]
        rfl
    · intro k v o2 rest hlen
      rcases o2 with _ | ⟨k2, v2, o3⟩
      · have h1 : JsonObj.fields (.ocons k v .onil) =
            ('"' :: (escStr k ++ ['"'])) ++ (':' :: Json.stringify v) := rfl
        have hv : (Json.stringify v).length ≤ fuel := by
          rw [h1] at hlen
          simp [List.length_append] at hlen
          omega
        have hst : JsonObj.fields (.ocons k v .onil) ++ ('\x7d' :: rest) =
            '"' :: (escStr k ++ ('"' :: (':' :: (Json.stringify v ++ ('\x7d' :: rest))))) := by
          rw [h1]
          simp
        rw [hst, parseFields_quote]
        show (match parseVal fuel (skipWsJ (Json.stringify v ++ ('\x7d' :: rest))) with
              | none => none
              | some (vv, rest4) =>
                match skipWsJ rest4 with
                | ',' :: rest5 =>
                  (parseFields fuel rest5).map (fun p => (JsonObj.ocons k vv p.1, p.2))
                | '\x7d' :: rest5 => some (JsonObj.ocons k vv .onil, rest5)
                | _ => none) = some (JsonObj.ocons k v .onil, rest)
        rw [skipWsJ_stringify_append, ihV v ('\x7d' :: rest) hv rfl]
        rfl
      · have h1 : JsonObj.fields (.ocons k v (.ocons k2 v2 o3)) =
            (('"' :: (escStr k ++ ['"'])) ++ (':' :: Json.stringify v)) ++
              (',' :: JsonObj.fields (.ocons k2 v2 o3)) := rfl
        have hv : (Json.stringify v).length ≤ fuel ∧
            (JsonObj.fields (.ocons k2 v2 o3)).length + 1 ≤ fuel := by
          rw [h1] at hlen
          simp [List.length_append] at hlen
          omega
        have hst : JsonObj.fields (.ocons k v (.ocons k2 v2 o3)) ++ ('\x7d' :: rest) =
            '"' :: (escStr k ++ ('"' :: (':' :: (Json.stringify v ++
              (',' :: (JsonObj.fields (.ocons k2 v2 o3) ++ ('\x7d' :: rest))))))) := by
          rw [h1]
          simp
        rw [hst, parseFields_quote]
        show (match parseVal fuel (skipWsJ (Json.stringify v ++
                (',' :: (JsonObj.fields (.ocons k2 v2 o3) ++ ('\x7d' :: rest))))) with
              | none => none
              | some (vv, rest4) =>
                match skipWsJ rest4 with
                | ',' :: rest5 =>
                  (parseFields fuel rest5).map (fun p => (JsonObj.ocons k vv p.1, p.2))
                | '\x7d' :: rest5 => some (JsonObj.ocons k vv .onil, rest5)
                | _ => none) = some (JsonObj.ocons k v (.ocons k2 v2 o3), rest)
        rw [skipWsJ_stringify_append,
          ihV v (',' :: (JsonObj.fields (.ocons k2 v2 o3) ++ ('\x7d' :: rest))) hv.1 rfl]
        show (parseFields fuel (JsonObj.fields (.ocons k2 v2 o3) ++ ('\x7d' :: rest))).map
          (fun p => (JsonObj.ocons k v p.1, p.2)) = _
        rw [ihO k2 v2 o3 rest hv.2]
        rfl

theorem parseJson_stringify_obj (o : JsonObj) :
    parseJson (Json.stringify (Json.jobj o)) = some (Json.jobj o) := by
  rw [parseJson]
  obtain ⟨c, t, hct, hw, _⟩ := stringify_head (Json.jobj o)
  have hskip : skipWsJ (Json.stringify (Json.jobj o)) = Json.stringify (Json.jobj o) := by
    rw [hct, skipWsJ_cons _ hw]
  rw [hskip]
  have hrt := (parse_stringify_rt ((Json.stringify (Json.jobj o)).length + 1)).1
    (Json.jobj o) [] (by omega) trivial
  rw [List.append_nil] at hrt
  rw [hrt]
  rfl

/- Scanner layer: the brace-and-string scanner exLoop is neutral over a
stringified JSON value at depth at least one, and extracts exactly the
rendered object at top level. -/

theorem exLoop_skip (c : Char) (rest : Str) (d : Int) (js : Option Nat) (i : Nat)
    (h1 : ¬ c = '\\') (h2 : ¬ c = '"') (h3 : ¬ c = '\x7b') (h4 : ¬ c = '\x7d') :
    exLoop (c :: rest) false false d js i = exLoop rest false false d js (i + 1) := by
  simp only [exLoop]
  rw [if_neg Bool.false_ne_true, if_neg h1, if_neg h2, if_neg Bool.false_ne_true,
    if_neg h3, if_neg h4]

theorem exLoop_instr (c : Char) (rest : Str) (d : Int) (js : Option Nat) (i : Nat)
    (h1 : ¬ c = '\\') (h2 : ¬ c = '"') :
    exLoop (c :: rest) true false d js i = exLoop rest true false d js (i + 1) := by
  simp only [exLoop]
  rw [if_neg Bool.false_ne_true, if_neg h1, if_neg h2, if_pos trivial]

theorem exLoop_quote_open (rest : Str) (d : Int) (js : Option Nat) (i : Nat) :
    exLoop ('"' :: rest) false false d js i = exLoop rest true false d js (i + 1) := rfl

theorem exLoop_quote_close (rest : Str) (d : Int) (js : Option Nat) (i : Nat) :
    exLoop ('"' :: rest) true false d js i = exLoop rest false false d js (i + 1) := rfl

theorem exLoop_esc (c : Char) (rest : Str) (b : Bool) (d : Int) (js : Option Nat) (i : Nat) :
    exLoop (c :: rest) b true d js i = exLoop rest b false d js (i + 1) := by
  simp only [exLoop]
  rw [if_pos trivial]

theorem exLoop_backslash (rest : Str) (b : Bool) (d : Int) (js : Option Nat) (i : Nat) :
    exLoop ('\\' :: rest) b false d js i = exLoop rest b true d js (i + 1) := by
  simp only [exLoop]
  rw [if_neg Bool.false_ne_true, if_pos trivial]

theorem exLoop_lbrace (rest : Str) (d : Int) (j0 : Nat) (i : Nat) :
    exLoop ('\x7b' :: rest) false false d (some j0) i =
      exLoop rest false false (d + 1) (some j0) (i + 1) := rfl

theorem exLoop_lbrace_none (rest : Str) (d : Int) (i : Nat) :
    exLoop ('\x7b' :: rest) false false d none i =
      exLoop rest false false (d + 1) (some i) (i + 1) := rfl

theorem exLoop_rbrace (rest : Str) (d : Int) (j0 : Nat) (i : Nat) :
    exLoop ('\x7d' :: rest) false false d (some j0) i =
      if d - 1 = 0 then some (j0, i + 1)
      else exLoop rest false false (d - 1) (some j0) (i + 1) := rfl

theorem exLoop_str (s : Str) : ∀ (rest : Str) (d : Int) (js : Option Nat) (i : Nat),
    exLoop (escStr s ++ ('"' :: rest)) true false d js i =
      exLoop rest false false d js (i + (escStr s).length + 1) := by
  induction s with
  | nil =>
    intro rest d js i
    exact exLoop_quote_close rest d js i
  | cons c cs ih =>
    intro rest d js i
    have hlen : (escStr (c :: cs)).length = (escChar c).length + (escStr cs).length := by
      show (escChar c ++ escStr cs).length = _
      rw [List.length_append]
    by_cases h1 : c = '"'
    · subst h1
      show exLoop ('\\' :: ('"' :: (escStr cs ++ ('"' :: rest)))) true false d js i = _
      rw [exLoop_backslash, exLoop_esc, ih rest d js (i + 1 + 1)]
      have h2 : (escChar '"').length = 2 := rfl
      have harith : i + 1 + 1 + (escStr cs).length + 1 =
          i + (escStr ('"' :: cs)).length + 1 := by
        rw [hlen, h2]
        omega
      rw [harith]
    · by_cases h2 : c = '\\'
      · subst h2
        show exLoop ('\\' :: ('\\' :: (escStr cs ++ ('"' :: rest)))) true false d js i = _
        rw [exLoop_backslash, exLoop_esc, ih rest d js (i + 1 + 1)]
        have h3 : (escChar '\\').length = 2 := rfl
        have harith : i + 1 + 1 + (escStr cs).length + 1 =
            i + (escStr ('\\' :: cs)).length + 1 := by
          rw [hlen, h3]
          omega
        rw [harith]
      · by_cases h3 : c = '\n'
        · subst h3
          show exLoop ('\\' :: ('n' :: (escStr cs ++ ('"' :: rest)))) true false d js i = _
          rw [exLoop_backslash, exLoop_esc, ih rest d js (i + 1 + 1)]
          have h4 : (escChar '\n').length = 2 := rfl
          have harith : i + 1 + 1 + (escStr cs).length + 1 =
              i + (escStr ('\n' :: cs)).length + 1 := by
            rw [hlen, h4]
            omega
          rw [harith]
        · by_cases h4 : c = '\t'
          · subst h4
            show exLoop ('\\' :: ('t' :: (escStr cs ++ ('"' :: rest)))) true false d js i = _
            rw [exLoop_backslash, exLoop_esc, ih rest d js (i + 1 + 1)]
            have h5 : (escChar '\t').length = 2 := rfl
            have harith : i + 1 + 1 + (escStr cs).length + 1 =
                i + (escStr ('\t' :: cs)).length + 1 := by
              rw [hlen, h5]
              omega
            rw [harith]
          · by_cases h5 : c = '\r'
            · subst h5
              show exLoop ('\\' :: ('r' :: (escStr cs ++ ('"' :: rest)))) true false d js i = _
              rw [exLoop_backslash, exLoop_esc, ih rest d js (i + 1 + 1)]
              have h6 : (escChar '\r').length = 2 := rfl
              have harith : i + 1 + 1 + (escStr cs).length + 1 =
                  i + (escStr ('\r' :: cs)).length + 1 := by
                rw [hlen, h6]
                omega
              rw [harith]
            · have hec : escChar c = [c] := by
                rw [escChar, if_neg h1, if_neg h2, if_neg h3, if_neg h4, if_neg h5]
              have hshape : escStr (c :: cs) ++ ('"' :: rest) =
                  c :: (escStr cs ++ ('"' :: rest)) := by
                show (escChar c ++ escStr cs) ++ ('"' :: rest) = _
                rw [hec, List.singleton_append, List.cons_append]
              rw [hshape, exLoop_instr c _ d js i h2 h1, ih rest d js (i + 1)]
              have h6 : (escChar c).length = 1 := by rw [hec]; rfl
              have harith : i + 1 + (escStr cs).length + 1 =
                  i + (escStr (c :: cs)).length + 1 := by
                rw [hlen, h6]
                omega
              rw [harith]

theorem exLoop_run (cs : Str)
    (h : ∀ c ∈ cs, ¬ c = '\\' ∧ ¬ c = '"' ∧ ¬ c = '\x7b' ∧ ¬ c = '\x7d') :
    ∀ (rest : Str) (d : Int) (js : Option Nat) (i : Nat),
    exLoop (cs ++ rest) false false d js i = exLoop rest false false d js (i + cs.length) := by
  induction cs with
  | nil => intro rest d js i; rfl
  | cons c cs ih =>
    intro rest d js i
    obtain ⟨h1, h2, h3, h4⟩ := h c (List.mem_cons_self c cs)
    rw [List.cons_append, exLoop_skip c _ d js i h1 h2 h3 h4,
      ih (fun x hx => h x (List.mem_cons_of_mem c hx)) rest d js (i + 1)]
    have harith : i + 1 + cs.length = i + (c :: cs).length := by
      rw [List.length_cons]
      omega
    rw [harith]

theorem natRepr_scan_safe (n : Nat) :
    ∀ c ∈ natRepr n, ¬ c = '\\' ∧ ¬ c = '"' ∧ ¬ c = '\x7b' ∧ ¬ c = '\x7d' := by
  intro c hc
  have h := (natRepr_spec n).2.2 c hc
  obtain ⟨_, _, _, _, _, hq, _, hob, _, hcb, hbs⟩ := digit_facts h
  exact ⟨hbs, hq, hob, hcb⟩

theorem exLoop_neutral : ∀ fuel : Nat,
    (∀ (j : Json) (rest : Str) (d : Int) (j0 i : Nat),
      (Json.stringify j).length ≤ fuel → 1 ≤ d →
      exLoop (Json.stringify j ++ rest) false false d (some j0) i =
        exLoop rest false false d (some j0) (i + (Json.stringify j).length)) ∧
    (∀ (v : Json) (a2 : JsonArr) (rest : Str) (d : Int) (j0 i : Nat),
      (JsonArr.elems (.acons v a2)).length + 1 ≤ fuel → 1 ≤ d →
      exLoop (JsonArr.elems (.acons v a2) ++ rest) false false d (some j0) i =
        exLoop rest false false d (some j0) (i + (JsonArr.elems (.acons v a2)).length)) ∧
    (∀ (k : Str) (v : Json) (o2 : JsonObj) (rest : Str) (d : Int) (j0 i : Nat),
      (JsonObj.fields (.ocons k v o2)).length + 1 ≤ fuel → 1 ≤ d →
      exLoop (JsonObj.fields (.ocons k v o2) ++ rest) false false d (some j0) i =
        exLoop rest false false d (some j0) (i + (JsonObj.fields (.ocons k v o2)).length)) := by
  intro fuel
  induction fuel with
  | zero =>
    refine ⟨?_, ?_, ?_⟩
    · intro j rest d j0 i hlen _
      obtain ⟨c, t, hct, _, _⟩ := stringify_head j
      rw [hct] at hlen
      simp at hlen
    · intro v a2 rest d j0 i hlen _
      omega
    · intro k v o2 rest d j0 i hlen _
      omega
  | succ fuel ih =>
    obtain ⟨ihV, ihA, ihO⟩ := ih
    refine ⟨?_, ?_, ?_⟩
    · intro j rest d j0 i hlen hd
      rcases j with _ | b | k | s | a | o
      · exact exLoop_run "null".data (by decide) rest d (some j0) i
      · rcases b with _ | _
        · exact exLoop_run "false".data (by decide) rest d (some j0) i
        · exact exLoop_run "true".data (by decide) rest d (some j0) i
      · show exLoop (intRepr k ++ rest) false false d (some j0) i =
          exLoop rest false false d (some j0) (i + (intRepr k).length)
        by_cases hk : k < 0
        · rw [intRepr, if_pos hk]
          refine exLoop_run ('-' :: natRepr k.natAbs) ?_ rest d (some j0) i
          intro c hc
          rcases List.mem_cons.mp hc with hc | hc
          · subst hc
            exact ⟨by decide, by decide, by decide, by decide⟩
          · exact natRepr_scan_safe k.natAbs c hc
        · rw [intRepr, if_neg hk]
          exact exLoop_run (natRepr k.toNat) (natRepr_scan_safe k.toNat) rest d (some j0) i
      · have hshape : Json.stringify (.jstr s) ++ rest =
            '"' :: (escStr s ++ ('"' :: rest)) := by
          show ('"' :: (escStr s ++ ['"'])) ++ rest = _
          rw [List.cons_append, List.append_assoc, List.singleton_append]
        rw [hshape, exLoop_quote_open, exLoop_str s rest d (some j0) (i + 1)]
        have hlen2 : (Json.stringify (.jstr s)).length = (escStr s).length + 2 := by
          show ('"' :: (escStr s ++ ['"'])).length = _
          rw [List.length_cons, List.length_append]
          rfl
        have harith : i + 1 + (escStr s).length + 1 =
            i + (Json.stringify (.jstr s)).length := by
          rw [hlen2]
          omega
        rw [harith]
      · rcases a with _ | ⟨v, a2⟩
        · exact exLoop_run "[]".data (by decide) rest d (some j0) i
        · have hshape : Json.stringify (.jarr (.acons v a2)) ++ rest =
              '[' :: (JsonArr.elems (.acons v a2) ++ (']' :: rest)) := by
            show ('[' :: (JsonArr.elems (.acons v a2) ++ [']'])) ++ rest = _
            rw [List.cons_append, List.append_assoc, List.singleton_append]
          have hL : (Json.stringify (.jarr (.acons v a2))).length =
              (JsonArr.elems (.acons v a2)).length + 2 := by
            show ('[' :: (JsonArr.elems (.acons v a2) ++ [']'])).length = _
            rw [List.length_cons, List.length_append]
            rfl
          have hlen2 : (JsonArr.elems (.acons v a2)).length + 1 ≤ fuel := by
            rw [hL] at hlen
            omega
          rw [hshape,
            exLoop_skip '[' _ d (some j0) i (by decide) (by decide) (by decide) (by decide),
            ihA v a2 (']' :: rest) d j0 (i + 1) hlen2 hd,
            exLoop_skip ']' _ d (some j0) _ (by decide) (by decide) (by decide) (by decide)]
          have harith : i + 1 + (JsonArr.elems (.acons v a2)).length + 1 =
              i + (Json.stringify (.jarr (.acons v a2))).length := by
            rw [hL]
            omega
          rw [harith]
      · rcases o with _ | ⟨k, v, o2⟩
        · have hshape : Json.stringify (.jobj .onil) ++ rest =
              '\x7b' :: ('\x7d' :: rest) := rfl
          rw [hshape, exLoop_lbrace, exLoop_rbrace, if_neg (by omega : ¬ d + 1 - 1 = 0)]
          have h1 : d + 1 - 1 = d := by omega
          have h2 : i + 1 + 1 = i + (Json.stringify (Json.jobj .onil)).length := by
            show _ = i + 2
            omega
          rw [h1, h2]
        · have hshape : Json.stringify (.jobj (.ocons k v o2)) ++ rest =
              '\x7b' :: (JsonObj.fields (.ocons k v o2) ++ ('\x7d' :: rest)) := by
            show ('\x7b' :: (JsonObj.fields (.ocons k v o2) ++ ['\x7d'])) ++ rest = _
            rw [List.cons_append, List.append_assoc, List.singleton_append]
          have hL : (Json.stringify (.jobj (.ocons k v o2))).length =
              (JsonObj.fields (.ocons k v o2)).length + 2 := by
            show ('\x7b' :: (JsonObj.fields (.ocons k v o2) ++ ['\x7d'])).length = _
            rw [List.length_cons, List.length_append]
            rfl
          have hlen2 : (JsonObj.fields (.ocons k v o2)).length + 1 ≤ fuel := by
            rw [hL] at hlen
            omega
          rw [hshape, exLoop_lbrace,
            ihO k v o2 ('\x7d' :: rest) (d + 1) j0 (i + 1) hlen2 (by omega),
            exLoop_rbrace, if_neg (by omega : ¬ d + 1 - 1 = 0)]
          have h1 : d + 1 - 1 = d := by omega
          have h2 : i + 1 + (JsonObj.fields (.ocons k v o2)).length + 1 =
              i + (Json.stringify (.jobj (.ocons k v o2))).length := by
            rw [hL]
            omega
          rw [h1, h2]
    · intro v a2 rest d j0 i hlen hd
      rcases a2 with _ | ⟨v2, a3⟩
      · have h1 : JsonArr.elems (.acons v .anil) = Json.stringify v := rfl
        have hv : (Json.stringify v).length ≤ fuel := by
          rw [h1] at hlen
          omega
        rw [h1]
        exact ihV v rest d j0 i hv hd
      · have h1 : JsonArr.elems (.acons v (.acons v2 a3)) =
            Json.stringify v ++ (',' :: JsonArr.elems (.acons v2 a3)) := rfl
        have hL : (JsonArr.elems (.acons v (.acons v2 a3))).length =
            (Json.stringify v).length + (JsonArr.elems (.acons v2 a3)).length + 1 := by
          rw [h1, List.length_append, List.length_cons]
          omega
        have hv : (Json.stringify v).length ≤ fuel ∧
            (JsonArr.elems (.acons v2 a3)).length + 1 ≤ fuel := by
          have h3 : 0 < (Json.stringify v).length :=
            List.length_pos.mpr (stringify_ne_nil v)
          omega
        rw [h1, List.append_assoc, List.cons_append,
          ihV v _ d j0 i hv.1 hd,
          exLoop_skip ',' _ d (some j0) _ (by decide) (by decide) (by decide) (by decide),
          ihA v2 a3 rest d j0 _ hv.2 hd]
        have harith : i + (Json.stringify v).length + 1 +
            (JsonArr.elems (.acons v2 a3)).length =
            i + (JsonArr.elems (.acons v (.acons v2 a3))).length := by
          rw [hL]
          omega
        rw [harith, h1]
    · intro k v o2 rest d j0 i hlen hd
      rcases o2 with _ | ⟨k2, v2, o3⟩
      · have h1 : JsonObj.fields (.ocons k v .onil) =
            ('"' :: (escStr k ++ ['"'])) ++ (':' :: Json.stringify v) := rfl
        have hL : (JsonObj.fields (.ocons k v .onil)).length =
            (escStr k).length + 3 + (Json.stringify v).length := by
          rw [h1]
          simp [List.length_append]
          omega
        have hv : (Json.stringify v).length ≤ fuel := by
          rw [hL] at hlen
          omega
        have hshape : JsonObj.fields (.ocons k v .onil) ++ rest =
            '"' :: (escStr k ++ ('"' :: (':' :: (Json.stringify v ++ rest)))) := by
          rw [h1]
          simp
        rw [hshape, exLoop_quote_open, exLoop_str k _ d (some j0) (i + 1),
          exLoop_skip ':' _ d (some j0) _ (by decide) (by decide) (by decide) (by decide),
          ihV v rest d j0 _ hv hd]
        have harith : i + 1 + (escStr k).length + 1 + 1 + (Json.stringify v).length =
            i + (JsonObj.fields (.ocons k v .onil)).length := by
          rw [hL]
          omega
        rw [harith]
      · have h1 : JsonObj.fields (.ocons k v (.ocons k2 v2 o3)) =
            (('"' :: (escStr k ++ ['"'])) ++ (':' :: Json.stringify v)) ++
              (',' :: JsonObj.fields (.ocons k2 v2 o3)) := rfl
        have hL : (JsonObj.fields (.ocons k v (.ocons k2 v2 o3))).length =
            (escStr k).length + 3 + (Json.stringify v).length + 1 +
              (JsonObj.fields (.ocons k2 v2 o3)).length := by
          rw [h1]
          simp [List.length_append]
          omega
        have hv : (Json.stringify v).length ≤ fuel ∧
            (JsonObj.fields (.ocons k2 v2 o3)).length + 1 ≤ fuel := by
          rw [hL] at hlen
          omega
        have hshape : JsonObj.fields (.ocons k v (.ocons k2 v2 o3)) ++ rest =
            '"' :: (escStr k ++ ('"' :: (':' :: (Json.stringify v ++
              (',' :: (JsonObj.fields (.ocons k2 v2 o3) ++ rest)))))) := by
          rw [h1]
          simp
        rw [hshape, exLoop_quote_open, exLoop_str k _ d (some j0) (i + 1),
          exLoop_skip ':' _ d (some j0) _ (by decide) (by decide) (by decide) (by decide),
          ihV v _ d j0 _ hv.1 hd,
          exLoop_skip ',' _ d (some j0) _ (by decide) (by decide) (by decide) (by decide),
          ihO k2 v2 o3 rest d j0 _ hv.2 hd]
        have harith : i + 1 + (escStr k).length + 1 + 1 + (Json.stringify v).length + 1 +
            (JsonObj.fields (.ocons k2 v2 o3)).length =
            i + (JsonObj.fields (.ocons k v (.ocons k2 v2 o3))).length := by
          rw [hL]
          omega
        rw [harith]

theorem exLoop_scan (o : JsonObj) (i0 : Nat) :
    exLoop (Json.stringify (Json.jobj o)) false false 0 none i0 =
      some (i0, i0 + (Json.stringify (Json.jobj o)).length) := by
  rcases o with _ | ⟨k, v, o2⟩
  · show exLoop ('\x7b' :: ['\x7d']) false false 0 none i0 = _
    rw [exLoop_lbrace_none, exLoop_rbrace, if_pos (by omega : (0 : Int) + 1 - 1 = 0)]
    rfl
  · have hshape : Json.stringify (Json.jobj (.ocons k v o2)) =
        '\x7b' :: (JsonObj.fields (.ocons k v o2) ++ ['\x7d']) := rfl
    have hL : (Json.stringify (.jobj (.ocons k v o2))).length =
        (JsonObj.fields (.ocons k v o2)).length + 2 := by
      rw [hshape, List.length_cons, List.length_append]
      rfl
    rw [hshape, exLoop_lbrace_none,
      (exLoop_neutral ((JsonObj.fields (.ocons k v o2)).length + 1)).2.2 k v o2
        ['\x7d'] ((0 : Int) + 1) i0 (i0 + 1) le_rfl (by omega),
      exLoop_rbrace, if_pos (by omega : (0 : Int) + 1 - 1 = 0)]
    have harith : i0 + 1 + (JsonObj.fields (.ocons k v o2)).length + 1 =
        i0 + (Json.stringify (Json.jobj (.ocons k v o2))).length := by
      rw [hL]
      omega
    rw [harith, hshape]

theorem extractJsonObject_at (pre : Str) (o : JsonObj) :
    extractJsonObject (pre ++ Json.stringify (Json.jobj o)) pre.length =
      some (Json.stringify (Json.jobj o),
        pre.length + (Json.stringify (Json.jobj o)).length) := by
  rw [extractJsonObject, List.drop_left, exLoop_scan o pre.length]
  show some (((pre ++ Json.stringify (Json.jobj o)).drop pre.length).take
      (pre.length + (Json.stringify (Json.jobj o)).length - pre.length),
      pre.length + (Json.stringify (Json.jobj o)).length) = _
  have h1 : pre.length + (Json.stringify (Json.jobj o)).length - pre.length =
      (Json.stringify (Json.jobj o)).length := by omega
  rw [h1, List.drop_left, List.take_length]

/- Occurrence layer: positions whose head character is not an opening
bracket (up to the case folding of the i-flagged regexes) can match neither
the marker searches nor the agent-tag regex. -/

theorem isPrefixOf_cons_false {p0 c : Char} (p2 r : Str) (h : ¬ c = p0) :
    List.isPrefixOf (p0 :: p2) (c :: r) = false := by
  simp only [List.isPrefixOf, Bool.and_eq_false_iff]
  left
  simp [beq_eq_false_iff_ne]
  exact fun he => absurd he.symm h

theorem toLower_lb {c : Char} (h : ¬ Char.toLower c = '[') : ¬ c = '[' := by
  intro hc
  subst hc
  exact absurd rfl h

theorem indexOfSub_skip_noLB (p2 X : Str) (hX : ∀ c ∈ X, ¬ Char.toLower c = '[') :
    ∀ Y : Str, indexOfSub ('[' :: p2) (X ++ Y) =
      (indexOfSub ('[' :: p2) Y).map (fun i => i + X.length) := by
  induction X with
  | nil =>
    intro Y
    cases hY : indexOfSub ('[' :: p2) Y <;> simp [hY]
  | cons x X2 ih =>
    intro Y
    rw [List.cons_append]
    show (if List.isPrefixOf ('[' :: p2) (x :: (X2 ++ Y)) = true then some 0
      else (indexOfSub ('[' :: p2) (X2 ++ Y)).map (fun i => i + 1)) = _
    rw [isPrefixOf_cons_false _ _ (toLower_lb (hX x (List.mem_cons_self x X2))),
      if_neg Bool.false_ne_true,
      ih (fun c hc => hX c (List.mem_cons_of_mem x hc)) Y]
    cases hY : indexOfSub ('[' :: p2) Y with
    | none => rfl
    | some a =>
      show some (a + X2.length + 1) = some (a + (x :: X2).length)
      rw [List.length_cons]
      have h2 : a + X2.length + 1 = a + (X2.length + 1) := by omega
      rw [h2]

theorem indexOfSub_none_noLB (p2 X : Str) (hX : ∀ c ∈ X, ¬ Char.toLower c = '[') :
    indexOfSub ('[' :: p2) X = none := by
  induction X with
  | nil => rfl
  | cons x X2 ih =>
    show (if List.isPrefixOf ('[' :: p2) (x :: X2) = true then some 0
      else (indexOfSub ('[' :: p2) X2).map (fun i => i + 1)) = _
    rw [isPrefixOf_cons_false _ _ (toLower_lb (hX x (List.mem_cons_self x X2))),
      if_neg Bool.false_ne_true,
      ih (fun c hc => hX c (List.mem_cons_of_mem x hc))]
    rfl

theorem ciPrefix_cons_false {c : Char} (r : Str) (h : ¬ Char.toLower c = '[') :
    ciPrefix "[agent:".data (c :: r) = false := by
  show (("[agent:".data.map Char.toLower).isPrefixOf ((c :: r).map Char.toLower)) = false
  rw [show "[agent:".data.map Char.toLower = '[' :: "agent:".data from rfl, List.map_cons]
  exact isPrefixOf_cons_false _ _ h

theorem bracketTagHere_none {c : Char} (r : Str) (h : ¬ Char.toLower c = '[') :
    bracketTagHere "[agent:".data (c :: r) = none := by
  rw [bracketTagHere, ciPrefix_cons_false r h, if_neg Bool.false_ne_true]

theorem findBracketTag_cons_none {pre : Str} {c : Char} {rest : Str}
    (h : bracketTagHere pre (c :: rest) = none) :
    findBracketTag pre (c :: rest) = findBracketTag pre rest := by
  simp only [findBracketTag, h]

theorem findBracketTag_cons_some {pre : Str} {c : Char} {rest g : Str}
    (h : bracketTagHere pre (c :: rest) = some g) :
    findBracketTag pre (c :: rest) = some (c :: rest, g) := by
  simp only [findBracketTag, h]

theorem findBracketTag_skip_noLB {X : Str} (Y : Str)
    (hX : ∀ c ∈ X, ¬ Char.toLower c = '[') :
    findBracketTag "[agent:".data (X ++ Y) = findBracketTag "[agent:".data Y := by
  induction X with
  | nil => rfl
  | cons x X2 ih =>
    rw [List.cons_append,
      findBracketTag_cons_none (bracketTagHere_none _ (hX x (List.mem_cons_self x X2))),
      ih (fun c hc => hX c (List.mem_cons_of_mem x hc))]

theorem bracketTagHere_agent (N tail : Str) (hNe : N ≠ []) (hNl : trimLeft N = N)
    (hNb : ∀ c ∈ N, ¬ c = ']') (htail : tail.all isWhite = true) :
    bracketTagHere "[agent:".data ("[Agent: ".data ++ (N ++ (']' :: tail))) = some N := by
  have hNp : ∀ c ∈ N, (fun c => decide (c ≠ ']')) c = true := by
    intro c hc
    simp [hNb c hc]
  have htw : (N ++ (']' :: tail)).takeWhile (fun c => decide (c ≠ ']')) = N := by
    rw [takeWhile_append_all _ hNp, takeWhile_cons_neg _ (by decide), List.append_nil]
  have hdw : (N ++ (']' :: tail)).dropWhile (fun c => decide (c ≠ ']')) = ']' :: tail := by
    rw [dropWhile_append_all _ hNp, dropWhile_cons_neg _ (by decide)]
  simp only [bracketTagHere]
  rw [if_pos (show ciPrefix "[agent:".data
    ("[Agent: ".data ++ (N ++ (']' :: tail))) = true from rfl)]
  have hAfter : ("[Agent: ".data ++ (N ++ (']' :: tail))).drop
      ("[agent:".data).length = ' ' :: (N ++ (']' :: tail)) := rfl
  rw [hAfter, List.takeWhile_cons, List.dropWhile_cons]
  rw [if_pos (show (decide ((' ' : Char) ≠ ']')) = true from rfl),
    if_pos (show (decide ((' ' : Char) ≠ ']')) = true from rfl), htw, hdw]
  show (if (' ' :: N) ≠ [] ∧ tail.all isWhite = true then
      some (if trimLeft (' ' :: N) = [] then (' ' :: N).drop ((' ' :: N).length - 1)
        else trimLeft (' ' :: N))
    else none) = some N
  rw [if_pos ⟨List.cons_ne_nil ' ' N, htail⟩]
  have htl : trimLeft (' ' :: N) = N := by
    rw [trimLeft_cons_white (c := ' ') rfl, hNl]
  rw [htl, if_neg hNe]

theorem suffix_split {Q X Y : Str} (h : Q.IsSuffix (X ++ Y)) :
    Q.IsSuffix Y ∨ ∃ X2, X2.IsSuffix X ∧ X2 ≠ [] ∧ Q = X2 ++ Y := by
  obtain ⟨pre, hpre⟩ := h
  rcases List.append_eq_append_iff.mp hpre with ⟨a2, h1, h2⟩ | ⟨c2, h1, h2⟩
  · rcases a2 with _ | ⟨a0, a3⟩
    · left
      rw [h2]
      exact List.suffix_refl Y
    · right
      exact ⟨a0 :: a3, ⟨pre, h1.symm⟩, List.cons_ne_nil a0 a3, h2⟩
  · left
    exact ⟨c2, h2.symm⟩

theorem tagAfterWs_cons_none_notwhite {q : Char} (rest : Str)
    (h1 : bracketTagHere "[agent:".data (q :: rest) = none) (h2 : isWhite q = false) :
    tagAfterWs (q :: rest) = false := by
  simp only [tagAfterWs]
  rw [h1]
  rw [show (none : Option Str).isSome = false from rfl, if_neg Bool.false_ne_true,
    h2, if_neg Bool.false_ne_true]

theorem tagAfterWs_cons_none_white {q : Char} (rest : Str)
    (h1 : bracketTagHere "[agent:".data (q :: rest) = none) (h2 : isWhite q = true) :
    tagAfterWs (q :: rest) = tagAfterWs rest := by
  simp only [tagAfterWs]
  rw [h1]
  rw [show (none : Option Str).isSome = false from rfl, if_neg Bool.false_ne_true,
    h2, if_pos rfl]

theorem tagAfterWs_cons_some {q : Char} (rest g : Str)
    (h1 : bracketTagHere "[agent:".data (q :: rest) = some g) :
    tagAfterWs (q :: rest) = true := by
  simp only [tagAfterWs]
  rw [h1]
  rw [show (some g).isSome = true from rfl, if_pos rfl]

theorem tagAfterWs_zone (Z : Str) (hZ : tagAfterWs Z = false) :
    ∀ Q : Str,
      (∀ q qs, (q :: qs).IsSuffix Q →
        bracketTagHere "[agent:".data ((q :: qs) ++ Z) = none) →
      tagAfterWs (Q ++ Z) = false := by
  intro Q
  induction Q with
  | nil =>
    intro _
    exact hZ
  | cons q Q2 ih =>
    intro h
    have h0 : bracketTagHere "[agent:".data (q :: (Q2 ++ Z)) = none := by
      have h1 := h q Q2 (List.suffix_refl _)
      rw [List.cons_append] at h1
      exact h1
    rw [List.cons_append]
    cases hw : isWhite q
    · exact tagAfterWs_cons_none_notwhite _ h0 hw
    · rw [tagAfterWs_cons_none_white _ h0 hw]
      exact ih (fun p ps hs => h p ps (hs.trans (List.suffix_cons q Q2)))

theorem findReplaceStart_skip (P Z : Str)
    (h : ∀ q qs, (q :: qs).IsSuffix P → tagAfterWs ((q :: qs) ++ Z) = false) :
    findReplaceStart (P ++ Z) = (findReplaceStart Z).map (fun i => i + P.length) := by
  induction P with
  | nil =>
    cases hZ2 : findReplaceStart Z <;> simp [hZ2]
  | cons p P2 ih =>
    rw [List.cons_append]
    show (if tagAfterWs (p :: (P2 ++ Z)) = true then some 0
      else (findReplaceStart (P2 ++ Z)).map (fun i => i + 1)) = _
    have h0 : tagAfterWs (p :: (P2 ++ Z)) = false := by
      have h1 := h p P2 (List.suffix_refl _)
      rw [List.cons_append] at h1
      exact h1
    rw [h0, if_neg Bool.false_ne_true,
      ih (fun q qs hs => h q qs (hs.trans (List.suffix_cons p P2)))]
    cases hZ2 : findReplaceStart Z with
    | none => rfl
    | some a =>
      show some (a + P2.length + 1) = some (a + (p :: P2).length)
      rw [List.length_cons]
      have h2 : a + P2.length + 1 = a + (P2.length + 1) := by omega
      rw [h2]

theorem no_tag_suffix_P (t Sinit Z : Str)
    (ht : ∀ c ∈ t, ¬ Char.toLower c = '[')
    (hSi : ∀ c ∈ Sinit, ¬ Char.toLower c = '[') :
    ∀ q qs, (q :: qs).IsSuffix (t ++ ("\n\n".data ++ ("[CHART]\n".data ++ Sinit))) →
      bracketTagHere "[agent:".data ((q :: qs) ++ Z) = none := by
  intro q qs hsuf
  rcases suffix_split hsuf with hsuf | ⟨t2, hts, htne, heq⟩
  · rcases suffix_split hsuf with hsuf | ⟨n2, hns, hnne, heq⟩
    · rcases suffix_split hsuf with hsuf | ⟨c2, hcs, hcne, heq⟩
      · have hq : q ∈ Sinit := hsuf.subset (List.mem_cons_self q qs)
        rw [List.cons_append]
        exact bracketTagHere_none _ (hSi q hq)
      · rcases List.suffix_cons_iff.mp hcs with rfl | hcs2
        · rw [List.cons_append] at heq
          cases heq
          rw [List.cons_append]
          rfl
        · rcases c2 with _ | ⟨c0, c3⟩
          · exact absurd rfl hcne
          · have hc0 : c0 ∈ "CHART]\n".data := hcs2.subset (List.mem_cons_self c0 c3)
            have hcl : ¬ Char.toLower c0 = '[' := by
              have hall : ∀ c ∈ "CHART]\n".data, ¬ Char.toLower c = '[' := by decide
              exact hall c0 hc0
            rw [List.cons_append] at heq
            cases heq
            rw [List.cons_append]
            exact bracketTagHere_none _ hcl
    · rcases n2 with _ | ⟨n0, n3⟩
      · exact absurd rfl hnne
      · have hn0 : n0 ∈ "\n\n".data := hns.subset (List.mem_cons_self n0 n3)
        have hnl : ¬ Char.toLower n0 = '[' := by
          have hall : ∀ c ∈ "\n\n".data, ¬ Char.toLower c = '[' := by decide
          exact hall n0 hn0
        rw [List.cons_append] at heq
        cases heq
        rw [List.cons_append]
        exact bracketTagHere_none _ hnl
  · rcases t2 with _ | ⟨t0, t3⟩
    · exact absurd rfl htne
    · have ht0 : t0 ∈ t := hts.subset (List.mem_cons_self t0 t3)
      rw [List.cons_append] at heq
      cases heq
      rw [List.cons_append]
      exact bracketTagHere_none _ (ht _ ht0)

theorem matchAgentTag_M (t : Str) (o : JsonObj) (N : Str)
    (ht : ∀ c ∈ t, ¬ Char.toLower c = '[')
    (hS : ∀ c ∈ Json.stringify (Json.jobj o), ¬ Char.toLower c = '[')
    (hNe : N ≠ []) (hNl : trimLeft N = N) (hNb : ∀ c ∈ N, ¬ c = ']') :
    matchAgentTag ((t ++ ("\n\n".data ++ ("[CHART]\n".data ++
        Json.stringify (Json.jobj o)))) ++ (" [Agent: ".data ++ (N ++ "]".data))) =
      some N := by
  have hfbt : findBracketTag "[agent:".data
      ((t ++ ("\n\n".data ++ ("[CHART]\n".data ++ Json.stringify (Json.jobj o)))) ++
        (" [Agent: ".data ++ (N ++ "]".data))) =
      some ("[Agent: ".data ++ (N ++ [']']), N) := by
    have hM : (t ++ ("\n\n".data ++ ("[CHART]\n".data ++ Json.stringify (Json.jobj o)))) ++
        (" [Agent: ".data ++ (N ++ "]".data)) =
        t ++ ("\n\n".data ++ ("[CHART]\n".data ++ (Json.stringify (Json.jobj o) ++
          ([' '] ++ ("[Agent: ".data ++ (N ++ [']'])))))) := by
      simp
    rw [hM, findBracketTag_skip_noLB _ ht, findBracketTag_skip_noLB _ (by decide)]
    have hstep : findBracketTag "[agent:".data
        ("[CHART]\n".data ++ (Json.stringify (Json.jobj o) ++
          ([' '] ++ ("[Agent: ".data ++ (N ++ [']']))))) =
        findBracketTag "[agent:".data
        ("CHART]\n".data ++ (Json.stringify (Json.jobj o) ++
          ([' '] ++ ("[Agent: ".data ++ (N ++ [']']))))) :=
      findBracketTag_cons_none rfl
    rw [hstep, findBracketTag_skip_noLB _ (by decide), findBracketTag_skip_noLB _ hS,
      findBracketTag_skip_noLB _ (by decide)]
    exact findBracketTag_cons_some (bracketTagHere_agent N [] hNe hNl hNb rfl)
  simp only [matchAgentTag]
  rw [hfbt]
  rfl

theorem stripAgentTag_M (t : Str) (o : JsonObj) (N : Str)
    (ht : ∀ c ∈ t, ¬ Char.toLower c = '[')
    (hS : ∀ c ∈ Json.stringify (Json.jobj o), ¬ Char.toLower c = '[')
    (hNe : N ≠ []) (hNl : trimLeft N = N) (hNb : ∀ c ∈ N, ¬ c = ']') :
    stripAgentTag ((t ++ ("\n\n".data ++ ("[CHART]\n".data ++
        Json.stringify (Json.jobj o)))) ++ (" [Agent: ".data ++ (N ++ "]".data))) =
      t ++ ("\n\n".data ++ ("[CHART]\n".data ++ Json.stringify (Json.jobj o))) := by
  have hSd : Json.stringify (Json.jobj o) =
      '\x7b' :: (JsonObj.fields o ++ ['\x7d']) := rfl
  have hSi : ∀ c ∈ ('\x7b' :: JsonObj.fields o), ¬ Char.toLower c = '[' := by
    intro c hc
    rcases List.mem_cons.mp hc with rfl | hc
    · decide
    · refine hS c ?_
      rw [hSd]
      exact List.mem_cons_of_mem _ (List.mem_append_left _ hc)
  have hM2 : (t ++ ("\n\n".data ++ ("[CHART]\n".data ++ Json.stringify (Json.jobj o)))) ++
      (" [Agent: ".data ++ (N ++ "]".data)) =
      (t ++ ("\n\n".data ++ ("[CHART]\n".data ++ ('\x7b' :: JsonObj.fields o)))) ++
        ('\x7d' :: (' ' :: ("[Agent: ".data ++ (N ++ [']'])))) := by
    rw [hSd]
    simp
  have hZfalse : tagAfterWs ('\x7d' :: (' ' :: ("[Agent: ".data ++ (N ++ [']'])))) = false :=
    tagAfterWs_cons_none_notwhite _ (bracketTagHere_none _ (by decide)) rfl
  have h1 : tagAfterWs (' ' :: ("[Agent: ".data ++ (N ++ [']']))) = true := by
    rw [tagAfterWs_cons_none_white _ (bracketTagHere_none _ (by decide)) (by decide)]
    exact tagAfterWs_cons_some _ N (bracketTagHere_agent N [] hNe hNl hNb rfl)
  have hFRSZ : findReplaceStart ('\x7d' :: (' ' :: ("[Agent: ".data ++ (N ++ [']'])))) =
      some 1 := by
    show (if tagAfterWs ('\x7d' :: (' ' :: ("[Agent: ".data ++ (N ++ [']'])))) = true
        then some 0
        else (findReplaceStart (' ' :: ("[Agent: ".data ++ (N ++ [']'])))).map
          (fun i => i + 1)) = some 1
    rw [hZfalse, if_neg Bool.false_ne_true]
    show ((if tagAfterWs (' ' :: ("[Agent: ".data ++ (N ++ [']']))) = true then some 0
        else (findReplaceStart ("[Agent: ".data ++ (N ++ [']']))).map
          (fun i => i + 1)).map (fun i => i + 1)) = some 1
    rw [h1, if_pos rfl]
    rfl
  have hFRS : findReplaceStart
      ((t ++ ("\n\n".data ++ ("[CHART]\n".data ++ ('\x7b' :: JsonObj.fields o)))) ++
        ('\x7d' :: (' ' :: ("[Agent: ".data ++ (N ++ [']']))))) =
      some (1 + (t ++ ("\n\n".data ++
        ("[CHART]\n".data ++ ('\x7b' :: JsonObj.fields o)))).length) := by
    rw [findReplaceStart_skip _ _ (fun q qs hsuf =>
      tagAfterWs_zone _ hZfalse (q :: qs) (fun p ps hps =>
        no_tag_suffix_P t ('\x7b' :: JsonObj.fields o) _ ht hSi p ps (hps.trans hsuf))),
      hFRSZ]
    rfl
  simp only [stripAgentTag]
  rw [hM2, hFRS]
  show ((t ++ ("\n\n".data ++ ("[CHART]\n".data ++ ('\x7b' :: JsonObj.fields o)))) ++
      ('\x7d' :: (' ' :: ("[Agent: ".data ++ (N ++ [']']))))).take
      (1 + (t ++ ("\n\n".data ++
        ("[CHART]\n".data ++ ('\x7b' :: JsonObj.fields o)))).length) = _
  have hsplit : (t ++ ("\n\n".data ++ ("[CHART]\n".data ++ ('\x7b' :: JsonObj.fields o)))) ++
      ('\x7d' :: (' ' :: ("[Agent: ".data ++ (N ++ [']'])))) =
      ((t ++ ("\n\n".data ++ ("[CHART]\n".data ++ ('\x7b' :: JsonObj.fields o)))) ++
        ['\x7d']) ++ (' ' :: ("[Agent: ".data ++ (N ++ [']']))) := by
    simp
  have hlen : 1 + (t ++ ("\n\n".data ++
      ("[CHART]\n".data ++ ('\x7b' :: JsonObj.fields o)))).length =
      ((t ++ ("\n\n".data ++ ("[CHART]\n".data ++ ('\x7b' :: JsonObj.fields o)))) ++
        ['\x7d']).length := by
    simp only [List.length_append, List.length_cons, List.length_nil]
    omega
  rw [hsplit, hlen, List.take_left]
  rw [hSd]
  simp

theorem trimLeft_cons_notwhite {c : Char} (s : Str) (h : isWhite c = false) :
    trimLeft (c :: s) = c :: s := by
  rw [trimLeft]
  exact dropWhile_cons_neg s h

theorem trimLeft_length_le (s : Str) : (trimLeft s).length ≤ s.length :=
  (List.dropWhile_sublist _).length_le

theorem trimRight_length_le (s : Str) : (trimRight s).length ≤ s.length := by
  rw [trimRight, List.length_reverse]
  calc (s.reverse.dropWhile isWhite).length
      ≤ s.reverse.length := (List.dropWhile_sublist _).length_le
    _ = s.length := List.length_reverse s

theorem clean_head (t : Str) (hne : t ≠ []) (hcl : trim t = t) :
    ∃ c r, t = c :: r ∧ isWhite c = false := by
  obtain ⟨c, r, rfl⟩ := List.exists_cons_of_ne_nil hne
  refine ⟨c, r, rfl, ?_⟩
  cases hw : isWhite c
  · rfl
  · exfalso
    have h1 : trimLeft (c :: r) = trimLeft r := trimLeft_cons_white hw r
    have h2 : (trim (c :: r)).length ≤ r.length := by
      rw [trim, h1]
      calc (trimRight (trimLeft r)).length
          ≤ (trimLeft r).length := trimRight_length_le _
        _ ≤ r.length := trimLeft_length_le _
    rw [hcl, List.length_cons] at h2
    omega

theorem trimLeft_clean_append (t w : Str) (hne : t ≠ []) (hcl : trim t = t) :
    trimLeft (t ++ w) = t ++ w := by
  obtain ⟨c, r, hcr, hcw⟩ := clean_head t hne hcl
  rw [hcr, List.cons_append, trimLeft_cons_notwhite _ hcw]

theorem trimRight_append_white {w : Str} (x : Str) (hw : ∀ c ∈ w, isWhite c = true) :
    trimRight (x ++ w) = trimRight x := by
  rw [trimRight, trimRight, List.reverse_append,
    dropWhile_append_all _ (fun c hc => hw c (List.mem_reverse.mp hc))]

theorem trimRight_clean (t : Str) (hne : t ≠ []) (hcl : trim t = t) : trimRight t = t := by
  obtain ⟨c, r, hcr, hcw⟩ := clean_head t hne hcl
  have h2 : trimLeft t = t := by
    rw [hcr]
    exact trimLeft_cons_notwhite _ hcw
  have h3 := hcl
  rw [trim, h2] at h3
  exact h3

theorem trim_append_white {w : Str} (t : Str) (hne : t ≠ []) (hcl : trim t = t)
    (hw : ∀ c ∈ w, isWhite c = true) : trim (t ++ w) = t := by
  rw [trim, trimLeft_clean_append t w hne hcl, trimRight_append_white t hw,
    trimRight_clean t hne hcl]

theorem trim_clean_append_rbrace (t p : Str) (hne : t ≠ []) (hcl : trim t = t) :
    trim (t ++ (p ++ ['\x7d'])) = t ++ (p ++ ['\x7d']) := by
  rw [trim, trimLeft_clean_append t _ hne hcl]
  have h1 : t ++ (p ++ ['\x7d']) = (t ++ p) ++ ['\x7d'] := by simp
  rw [h1]
  exact trimRight_append_single (by decide)

theorem parseVizBlock_chart (t : Str) (o : JsonObj)
    (ht : ∀ c ∈ t, ¬ Char.toLower c = '[') (hne : t ≠ []) (hcl : trim t = t) :
    parseVizBlock "[CHART]".data
      (t ++ ("\n\n".data ++ ("[CHART]\n".data ++ Json.stringify (Json.jobj o)))) =
    (t, some (Json.jobj o)) := by
  have hX : ∀ c ∈ t ++ "\n\n".data, ¬ Char.toLower c = '[' := by
    intro c hc
    rcases List.mem_append.mp hc with hc | hc
    · exact ht c hc
    · have hall : ∀ c ∈ "\n\n".data, ¬ Char.toLower c = '[' := by decide
      exact hall c hc
  have hidx : indexOfSub "[CHART]".data
      (t ++ ("\n\n".data ++ ("[CHART]\n".data ++ Json.stringify (Json.jobj o)))) =
      some (t.length + 2) := by
    have h1 : t ++ ("\n\n".data ++ ("[CHART]\n".data ++ Json.stringify (Json.jobj o))) =
        (t ++ "\n\n".data) ++ ("[CHART]\n".data ++ Json.stringify (Json.jobj o)) := by
      simp
    rw [h1]
    rw [show indexOfSub "[CHART]".data
        ((t ++ "\n\n".data) ++ ("[CHART]\n".data ++ Json.stringify (Json.jobj o))) =
        (indexOfSub "[CHART]".data
          ("[CHART]\n".data ++ Json.stringify (Json.jobj o))).map
          (fun i => i + (t ++ "\n\n".data).length) from
      indexOfSub_skip_noLB "CHART]".data (t ++ "\n\n".data) hX _]
    rw [show indexOfSub "[CHART]".data
        ("[CHART]\n".data ++ Json.stringify (Json.jobj o)) = some 0 from rfl]
    show some (0 + (t ++ "\n\n".data).length) = some (t.length + 2)
    rw [List.length_append, show ("\n\n".data).length = 2 from rfl]
    have h2 : 0 + (t.length + 2) = t.length + 2 := by omega
    rw [h2]
  have hdrop : (t ++ ("\n\n".data ++ ("[CHART]\n".data ++
      Json.stringify (Json.jobj o)))).drop (t.length + 2 + ("[CHART]".data).length) =
      '\n' :: Json.stringify (Json.jobj o) := by
    have h1 : t ++ ("\n\n".data ++ ("[CHART]\n".data ++ Json.stringify (Json.jobj o))) =
        (t ++ "\n\n[CHART]".data) ++ ('\n' :: Json.stringify (Json.jobj o)) := by
      simp
    rw [h1]
    refine List.drop_left' ?_
    rw [List.length_append, show ("\n\n[CHART]".data).length = 9 from rfl,
      show ("[CHART]".data).length = 7 from rfl]
  have hnl : indexOfSub "\n".data ('\n' :: Json.stringify (Json.jobj o)) = some 0 := rfl
  have hex : extractJsonObject
      (t ++ ("\n\n".data ++ ("[CHART]\n".data ++ Json.stringify (Json.jobj o))))
      (t.length + 2 + ("[CHART]".data).length + 0 + 1) =
      some (Json.stringify (Json.jobj o),
        t.length + 10 + (Json.stringify (Json.jobj o)).length) := by
    have h1 : t ++ ("\n\n".data ++ ("[CHART]\n".data ++ Json.stringify (Json.jobj o))) =
        (t ++ "\n\n[CHART]\n".data) ++ Json.stringify (Json.jobj o) := by
      simp
    have h2 : t.length + 2 + ("[CHART]".data).length + 0 + 1 =
        (t ++ "\n\n[CHART]\n".data).length := by
      rw [List.length_append, show ("\n\n[CHART]\n".data).length = 10 from rfl,
        show ("[CHART]".data).length = 7 from rfl]
    rw [h1, h2, extractJsonObject_at (t ++ "\n\n[CHART]\n".data) o]
    have h3 : (t ++ "\n\n[CHART]\n".data).length = t.length + 10 := by
      rw [List.length_append, show ("\n\n[CHART]\n".data).length = 10 from rfl]
    rw [h3]
  have hdrop2 : (t ++ ("\n\n".data ++ ("[CHART]\n".data ++
      Json.stringify (Json.jobj o)))).drop
      (t.length + 10 + (Json.stringify (Json.jobj o)).length) = [] := by
    rw [List.drop_eq_nil_iff]
    simp only [List.length_append]
    rw [show ("\n\n".data).length = 2 from rfl, show ("[CHART]\n".data).length = 8 from rfl]
    omega
  have hIlen : ¬ (t.length + 10 + (Json.stringify (Json.jobj o)).length +
      (([] : Str).takeWhile isWhite).length <
      (t ++ ("\n\n".data ++ ("[CHART]\n".data ++
        Json.stringify (Json.jobj o)))).length) := by
    simp only [List.length_append, List.takeWhile_nil, List.length_nil]
    rw [show ("\n\n".data).length = 2 from rfl, show ("[CHART]\n".data).length = 8 from rfl]
    omega
  have htake : (t ++ ("\n\n".data ++ ("[CHART]\n".data ++
      Json.stringify (Json.jobj o)))).take (t.length + 2) = t ++ "\n\n".data := by
    have h1 : t ++ ("\n\n".data ++ ("[CHART]\n".data ++ Json.stringify (Json.jobj o))) =
        (t ++ "\n\n".data) ++ ("[CHART]\n".data ++ Json.stringify (Json.jobj o)) := by
      simp
    rw [h1]
    refine List.take_left' ?_
    rw [List.length_append, show ("\n\n".data).length = 2 from rfl]
  have hw2 : ∀ c ∈ "\n\n".data, isWhite c = true := by decide
  simp only [parseVizBlock, hidx, hdrop, hnl, hex, parseJson_stringify_obj o, hdrop2]
  rw [if_neg hIlen]
  rw [htake, List.append_nil, trim_append_white t hne hcl hw2, hcl]

theorem parseVizBlock_none (m2 X : Str) (hX : ∀ c ∈ X, ¬ Char.toLower c = '[') :
    parseVizBlock ('[' :: m2) X = (X, none) := by
  simp only [parseVizBlock, indexOfSub_none_noLB m2 X hX]

theorem parseSavedArticlesBlock_none (X : Str)
    (hX : ∀ c ∈ X, ¬ Char.toLower c = '[') (hne : X ≠ []) :
    parseSavedArticlesBlock X = (X, []) := by
  simp only [parseSavedArticlesBlock]
  rw [if_neg hne,
    show indexOfSub "[ARTICLES]".data X = none from
      indexOfSub_none_noLB "ARTICLES]".data X hX]

theorem parseSavedVisualizations_M (t : Str) (o : JsonObj)
    (ht : ∀ c ∈ t, ¬ Char.toLower c = '[') (hne : t ≠ []) (hcl : trim t = t) :
    parseSavedVisualizations
      (t ++ ("\n\n".data ++ ("[CHART]\n".data ++ Json.stringify (Json.jobj o)))) =
    (t, some (Json.jobj o), none, none) := by
  have hTne : t ++ ("\n\n".data ++ ("[CHART]\n".data ++
      Json.stringify (Json.jobj o))) ≠ [] :=
    fun h => hne (List.append_eq_nil.mp h).1
  simp only [parseSavedVisualizations]
  rw [if_neg hTne]
  simp only [parseVizBlock_chart t o ht hne hcl]
  simp only [show parseVizBlock "[TIMELINE]".data t = (t, none) from
    parseVizBlock_none "TIMELINE]".data t ht]
  simp only [show parseVizBlock "[SCOREBOARD]".data t = (t, none) from
    parseVizBlock_none "SCOREBOARD]".data t ht]

theorem buildCH_M (u t N : Str) (o : JsonObj) (hte : t ≠ []) (hNe : N ≠ []) :
    buildConversationHistory
      [{ id := "u1".data, type := .user, text := u },
       { id := "3".data, type := .agent, text := t, agentName := some N,
         chart := some (Json.jobj o) }] =
      [{ role := .user, parts := [u] },
       { role := .model, parts := [(t ++ ("\n\n".data ++ ("[CHART]\n".data ++
          Json.stringify (Json.jobj o)))) ++ (" [Agent: ".data ++ (N ++ "]".data))] }] := by
  have hTruthy : optTruthy (some N) = true := by
    simp [optTruthy, hNe]
  simp +decide [buildConversationHistory, buildCH, attachBlocks, flushTurn, appendBlock,
    joinSp, hTruthy, hte, formatChartForLog]

theorem loadOne_M (D t N : Str) (o : JsonObj)
    (ht : ∀ c ∈ t, ¬ Char.toLower c = '[') (hte : t ≠ []) (hcl : trim t = t)
    (hS : ∀ c ∈ Json.stringify (Json.jobj o), ¬ Char.toLower c = '[')
    (hNe : N ≠ []) (hNl : trimLeft N = N) (hNr : trimRight N = N)
    (hNb : ∀ c ∈ N, ¬ c = ']') :
    loadOne D
      { role := .model
        parts := [(t ++ ("\n\n".data ++ ("[CHART]\n".data ++
          Json.stringify (Json.jobj o)))) ++ (" [Agent: ".data ++ (N ++ "]".data))] }
      none =
    ((splitIntoMessageChunks t).enum.map (fun p =>
      { id := "loaded-agent".data, type := .agent, text := p.2,
        agentName := some N,
        chart := if p.1 = 0 then some (Json.jobj o) else none }), some N) := by
  have htr : trim N = N := by rw [trim, hNl, hNr]
  have hname := matchAgentTag_M t o N ht hS hNe hNl hNb
  have hstrip := stripAgentTag_M t o N ht hS hNe hNl hNb
  have hSd : Json.stringify (Json.jobj o) =
      '\x7b' :: (JsonObj.fields o ++ ['\x7d']) := rfl
  have hTtrim : trim (t ++ ("\n\n".data ++ ("[CHART]\n".data ++
      Json.stringify (Json.jobj o)))) =
      t ++ ("\n\n".data ++ ("[CHART]\n".data ++ Json.stringify (Json.jobj o))) := by
    have hshape : t ++ ("\n\n".data ++ ("[CHART]\n".data ++
        Json.stringify (Json.jobj o))) =
        t ++ (("\n\n".data ++ ("[CHART]\n".data ++ ('\x7b' :: JsonObj.fields o))) ++
          ['\x7d']) := by
      rw [hSd]
      simp
    rw [hshape]
    exact trim_clean_append_rbrace t _ hte hcl
  have hviz := parseSavedVisualizations_M t o ht hte hcl
  have hart := parseSavedArticlesBlock_none t ht hte
  have hTruthy : optTruthy (some N) = true := by
    simp [optTruthy, hNe]
  simp only [loadOne, joinSp, hname, Option.map_some', htr, hstrip, hTtrim, hviz, hart,
    hcl, hTruthy, if_pos, jsOrOpt, Option.getD_some, ite_self]
  simp

/-- C1 (amended): for a user message followed by one agent message whose
text has no opening bracket (the decoder would treat a literal marker as a
block, as the counterexample shows), is non-empty and trimmed, whose chart
serialization contains no opening bracket, and whose non-empty trimmed agent
name contains no closing bracket, decoding the encoding yields exactly the
user message followed by the re-chunked agent text with the agent name on
every chunk and the chart, deep-equal to the original, attached only to the
first chunk; under the stated sentence-coverage condition the concatenated
chunk text preserves the non-whitespace content of the original agent text,
and the chunk list is never empty. -/
theorem roundtrip_chart_amended (u t N D : Str) (o : JsonObj)
    (ht : ∀ c ∈ t, ¬ Char.toLower c = '[') (hte : t ≠ []) (hcl : trim t = t)
    (hS : ∀ c ∈ Json.stringify (Json.jobj o), ¬ Char.toLower c = '[')
    (hNe : N ≠ []) (hNl : trimLeft N = N) (hNr : trimRight N = N)
    (hNb : ∀ c ∈ N, ¬ c = ']')
    (hchunk : nonWS (concatStr (sentencesOf t)) = nonWS t) :
    loadMessages D (buildConversationHistory
      [{ id := "u1".data, type := .user, text := u },
       { id := "3".data, type := .agent, text := t, agentName := some N,
         chart := some (Json.jobj o) }]) =
      { id := "loaded-user".data, type := .user, text := u } ::
        (splitIntoMessageChunks t).enum.map (fun p =>
          { id := "loaded-agent".data, type := .agent, text := p.2,
            agentName := some N,
            chart := if p.1 = 0 then some (Json.jobj o) else none }) ∧
    splitIntoMessageChunks t ≠ [] ∧
    nonWS (concatStr (splitIntoMessageChunks t)) = nonWS t := by
  refine ⟨?_, splitIntoMessageChunks_ne_nil t, splitIntoMessageChunks_nonWS t hchunk⟩
  rw [buildCH_M u t N o hte hNe]
  simp only [loadMessages, loadMessagesGo]
  have huser : loadOne D { role := .user, parts := [u] } none =
      ([{ id := "loaded-user".data, type := .user, text := u }], none) := rfl
  rw [huser, loadOne_M D t N o ht hte hcl hS hNe hNl hNr hNb]
  simp

/-- Witness for the amended C1 round trip at a concrete session: one user
message and one chart-carrying agent message with agent name Flynn the
Falcon; every hypothesis is discharged by evaluation. -/
theorem roundtrip_chart_amended_witness :
    loadMessages "Polly".data (buildConversationHistory
      [{ id := "u1".data, type := .user, text := "u".data },
       { id := "3".data, type := .agent, text := "Good news today. Markets rose.".data,
         agentName := some "Flynn the Falcon".data,
         chart := some (Json.jobj (.ocons "title".data (.jstr "Chart".data) .onil)) }]) =
      { id := "loaded-user".data, type := .user, text := "u".data } ::
        (splitIntoMessageChunks "Good news today. Markets rose.".data).enum.map (fun p =>
          { id := "loaded-agent".data, type := .agent, text := p.2,
            agentName := some "Flynn the Falcon".data,
            chart := if p.1 = 0 then
              some (Json.jobj (.ocons "title".data (.jstr "Chart".data) .onil))
              else none }) ∧
    splitIntoMessageChunks "Good news today. Markets rose.".data ≠ [] ∧
    nonWS (concatStr (splitIntoMessageChunks "Good news today. Markets rose.".data)) =
      nonWS "Good news today. Markets rose.".data :=
  roundtrip_chart_amended "u".data "Good news today. Markets rose.".data
    "Flynn the Falcon".data "Polly".data (.ocons "title".data (.jstr "Chart".data) .onil)
    (by decide) (by decide) (by decide) (by decide) (by decide) (by decide) (by decide)
    (by decide) (by decide)

end NewsNest
